import Mathlib

/-!
# Verification of the laya secure terminal tool server and agent loop

A shallow embedding of `servers/terminal-server/src/terminalTools.ts` and the
agent-loop / action-parser parts of `client/src/config.ts`, together with
proofs settling the frozen claims about the natural-language specification.

Conventions of the embedding:
* JavaScript strings are Lean `String`s; the handful of JS `String.prototype`
  builtins the code uses (`startsWith`, `includes`, `trim`, `slice`, …) are
  modelled explicitly over `String.data` (a `List Char`), so that proofs can
  proceed by list induction.
* Node `path` functions (`resolve`, `relative`, `isAbsolute`, POSIX flavour)
  are modelled lexically over `/`-separated segment lists, exactly as the
  POSIX implementations behave on absolute inputs.
* Effects (process spawn, filesystem, audit-log append, `Date.now()`,
  `crypto.randomUUID()`) are made explicit: tool functions take the current
  time, the fresh token and the outcomes of the effectful sub-calls as
  arguments, and return the mutated pending-confirmation map together with
  the list of spawn calls they performed and the `Except`-style result.
* JS regexes appearing in the *policy* (`blockedArgsRegex`,
  `argsRegexAnyOf`) are opaque data compiled elsewhere; they are modelled as
  their `test` functions `String → Bool` (paired with their source text
  where the source text is used in a message).
-/

namespace Laya

/-! ## JS string builtins, modelled over `List Char` -/

/-- JS `String.prototype.startsWith`. -/
def jsStartsWith (s pre : String) : Bool :=
  pre.data.isPrefixOf s.data

/-- JS `String.prototype.includes`. -/
def jsIncludes (s sub : String) : Bool :=
  decide (sub.data <:+: s.data)

/-- JS `String.prototype.endsWith`. -/
def jsEndsWith (s post : String) : Bool :=
  post.data.reverse.isPrefixOf s.data.reverse

/-- JS whitespace test (the `\s` class and `trim`); approximated by Unicode
whitespace, which covers every character the repository's data can contain. -/
def jsIsWs (c : Char) : Bool := c.isWhitespace

/-- JS `String.prototype.trim` (both ends). -/
def jsTrim (s : String) : String :=
  ⟨((s.data.dropWhile jsIsWs).reverse.dropWhile jsIsWs).reverse⟩

/-- JS `String.prototype.trimEnd`. -/
def jsTrimEnd (s : String) : String :=
  ⟨(s.data.reverse.dropWhile jsIsWs).reverse⟩

/-- JS `String.prototype.slice(0, n)` (also `take` of the first `n` chars). -/
def jsTake (s : String) : Nat → String :=
  fun n => ⟨s.data.take n⟩

/-- JS `String.prototype.toLowerCase`, restricted to ASCII case folding
(the code only compares against ASCII literals). -/
def jsToLower (s : String) : String :=
  ⟨s.data.map Char.toLower⟩

/-- JS `Array.prototype.join('/')` on a list of path segments. -/
def joinSegs : List String → String
  | [] => ""
  | [s] => s
  | s :: rest => s ++ "/" ++ joinSegs rest

/-! ## Node `path` (POSIX), lexical model

`path.resolve` on inputs whose leftmost absolute entry is known reduces to
string concatenation plus lexical normalization; `path.relative` resolves
both of its (here already absolute) arguments and compares segment lists.
-/

/-- Node `path.isAbsolute` (POSIX). -/
def isAbsolutePath (p : String) : Bool := jsStartsWith p "/"

/-- Split a char list on `/` (JS `String.prototype.split('/')`), collecting
the current segment in `acc` (reversed). -/
def splitPathAux : List Char → List Char → List String
  | [], acc => [⟨acc.reverse⟩]
  | c :: cs, acc =>
      if c = '/' then ⟨acc.reverse⟩ :: splitPathAux cs []
      else splitPathAux cs (c :: acc)

/-- Split a path string on `/`; empty and `.` segments are handled by
`normAbs` below, as Node's normalization does. -/
def splitPath (s : String) : List String := splitPathAux s.data []

/-- One step of Node's lexical normalization of an absolute path: empty and
`.` segments vanish, `..` pops the last kept segment (or vanishes at the
root), anything else is kept. -/
def normStep (acc : List String) (seg : String) : List String :=
  if seg = "" ∨ seg = "." then acc
  else if seg = ".." then acc.dropLast
  else acc ++ [seg]

/-- Node's lexical normalization of the segments of an absolute path. -/
def normAbs (segs : List String) : List String :=
  segs.foldl normStep []

/-- Render normalized absolute segments back to a path string. -/
def joinAbs (segs : List String) : String := "/" ++ joinSegs segs

/-- `path.resolve(p)` for an absolute `p`: normalize. Result as segments. -/
def pathResolveAbs (p : String) : List String := normAbs (splitPath p)

/-- `path.resolve(root, p)` for absolute `root` and relative `p`:
normalize `root + "/" + p`. Result as segments. -/
def pathResolve2 (root p : String) : List String :=
  normAbs (splitPath root ++ splitPath p)

/-- Length of the longest common prefix of two segment lists. -/
def commonPrefixLen : List String → List String → Nat
  | a :: as, b :: bs => if a = b then commonPrefixLen as bs + 1 else 0
  | _, _ => 0

/-- `path.relative` on two absolute, normalized segment lists: one `..` per
remaining source segment, then the remaining target segments. -/
def relSegsOf (f t : List String) : List String :=
  List.replicate (f.length - commonPrefixLen f t) ".." ++ t.drop (commonPrefixLen f t)

/-- `path.relative(fromAbs, toSegs)` where the target is already held as
normalized segments (as in `resolveSandboxPath`, where the target is the
just-resolved path; `path.relative` re-resolves it, which is the identity on
an already-normalized absolute path — the embedding applies `normAbs` again
to mirror that re-resolution). -/
def pathRelativeSegs (fromAbs : String) (toSegs : List String) : String :=
  joinSegs (relSegsOf (pathResolveAbs fromAbs) (normAbs toSegs))

/-! ## `resolveSandboxPath` (terminalTools.ts, lines 97–108) -/

/-- `resolveSandboxPath(ctx, userPath)`: relative inputs resolve against the
sandbox root, absolute inputs are normalized; the result's relative path
from the root must neither start with `".."` nor be absolute, else the
path-escape error is thrown. The context is represented by its only field
used here, `sandboxRootAbs`. -/
def resolveSandboxPath (sandboxRootAbs userPath : String) : Except String String :=
  let absSegs :=
    if isAbsolutePath userPath then pathResolveAbs userPath
    else pathResolve2 sandboxRootAbs userPath
  let rel := pathRelativeSegs sandboxRootAbs absSegs
  if jsStartsWith rel ".." ∨ isAbsolutePath rel then
    .error ("Path is outside sandboxRoot: " ++ userPath)
  else
    .ok (joinAbs absSegs)

/-! ### Lemmas about the path model -/

/-- A segment kept by normalization: nonempty, not `.`, not `..`. -/
def plainSeg (s : String) : Prop := s ≠ "" ∧ s ≠ "." ∧ s ≠ ".."

theorem normStep_plain {acc : List String} (h : ∀ s ∈ acc, plainSeg s) (seg : String) :
    ∀ s ∈ normStep acc seg, plainSeg s := by
  unfold normStep
  by_cases h0 : seg = "" ∨ seg = "."
  · simpa [h0] using h
  · by_cases h1 : seg = ".."
    · simp only [if_neg h0, if_pos h1]
      exact fun s hs => h s (List.dropLast_subset _ hs)
    · simp only [if_neg h0, if_neg h1]
      intro s hs
      rcases List.mem_append.1 hs with hs | hs
      · exact h s hs
      · rcases List.mem_singleton.1 hs with rfl
        push_neg at h0
        exact ⟨h0.1, h0.2, h1⟩

theorem normAbs_plain (segs : List String) : ∀ s ∈ normAbs segs, plainSeg s := by
  have general : ∀ (l acc : List String), (∀ s ∈ acc, plainSeg s) →
      ∀ s ∈ l.foldl normStep acc, plainSeg s := by
    intro l
    induction l with
    | nil => intro acc h; simpa using h
    | cons a tl ih =>
        intro acc h
        simpa using ih (normStep acc a) (normStep_plain h a)
  exact general segs [] (by simp)

theorem foldl_normStep_plain_id (l : List String) (h : ∀ s ∈ l, plainSeg s) :
    ∀ acc : List String, l.foldl normStep acc = acc ++ l := by
  induction l with
  | nil => simp
  | cons a tl ih =>
      intro acc
      have ha : plainSeg a := h a (by simp)
      have htl : ∀ s ∈ tl, plainSeg s := fun s hs => h s (by simp [hs])
      have hstep : normStep acc a = acc ++ [a] := by
        unfold normStep
        rw [if_neg, if_neg]
        · exact ha.2.2
        · push_neg
          exact ⟨ha.1, ha.2.1⟩
      simp only [List.foldl_cons, hstep, ih htl]
      simp

/-- Normalization is the identity on already-normalized segment lists. -/
theorem normAbs_normAbs (segs : List String) : normAbs (normAbs segs) = normAbs segs := by
  have := foldl_normStep_plain_id (normAbs segs) (normAbs_plain segs) []
  simpa [normAbs] using this

theorem commonPrefixLen_le_left : ∀ f t : List String, commonPrefixLen f t ≤ f.length := by
  intro f
  induction f with
  | nil => intro t; cases t <;> simp [commonPrefixLen]
  | cons a as ih =>
      intro t
      cases t with
      | nil => simp [commonPrefixLen]
      | cons b bs =>
          by_cases hab : a = b
          · simpa [commonPrefixLen, hab] using ih bs
          · simp [commonPrefixLen, hab]

theorem commonPrefixLen_eq_length_imp :
    ∀ f t : List String, commonPrefixLen f t = f.length → f <+: t := by
  intro f
  induction f with
  | nil => intro t _; exact List.nil_prefix
  | cons a as ih =>
      intro t h
      cases t with
      | nil => simp [commonPrefixLen] at h
      | cons b bs =>
          by_cases hab : a = b
          · subst hab
            have h' : commonPrefixLen as bs = as.length := by
              simp [commonPrefixLen] at h
              omega
            obtain ⟨r, hr⟩ := ih bs h'
            exact ⟨r, by simp [← hr]⟩
          · simp [commonPrefixLen, hab] at h

theorem jsStartsWith_append (x s : String) :
    jsStartsWith ⟨x.data ++ s.data⟩ x = true := by
  simp only [jsStartsWith]
  exact List.isPrefixOf_iff_prefix.2 ⟨s.data, rfl⟩

theorem jsStartsWith_joinSegs_head (a : String) (l : List String) :
    jsStartsWith (joinSegs (a :: l)) a = true := by
  cases l with
  | nil =>
      simp only [joinSegs]
      simpa using jsStartsWith_append a ""
  | cons b bs =>
      simp only [joinSegs]
      have : (a ++ "/" ++ joinSegs (b :: bs)) = ⟨a.data ++ ("/" ++ joinSegs (b :: bs)).data⟩ := by
        have h1 : a ++ "/" ++ joinSegs (b :: bs) = a ++ ("/" ++ joinSegs (b :: bs)) := by
          simp [String.append_assoc]
        rw [h1]
        apply congrArg
        rfl
      rw [this]
      exact jsStartsWith_append a ("/" ++ joinSegs (b :: bs))

theorem isAbsolutePath_joinAbs (segs : List String) :
    isAbsolutePath (joinAbs segs) = true := by
  simp only [isAbsolutePath, joinAbs]
  have : ("/" : String) ++ joinSegs segs = ⟨("/" : String).data ++ (joinSegs segs).data⟩ := by
    apply String.ext
    simp [String.data_append]
  rw [this]
  exact jsStartsWith_append "/" (joinSegs segs)

/-- The `rel` value computed inside `resolveSandboxPath`, exposed so that the
exact failure condition can be stated. -/
def sandboxRel (root p : String) : String :=
  pathRelativeSegs root
    (if isAbsolutePath p then pathResolveAbs p else pathResolve2 root p)

/-- C1. `resolveSandboxPath` either fails with the path-escape error — and it
does so exactly when the relative path of the normalized result from the
sandbox root starts with `".."` or is itself absolute — or returns an
absolute path that is lexically a descendant of the sandbox root: its
segment list extends the root's normalized segment list. The decision is
purely lexical: `resolveSandboxPath` is a pure function of the two strings,
with no filesystem access in the model or in the source. -/
theorem resolveSandboxPath_eq (root p : String) :
    resolveSandboxPath root p =
      if jsStartsWith (sandboxRel root p) ".." ∨ isAbsolutePath (sandboxRel root p) then
        .error ("Path is outside sandboxRoot: " ++ p)
      else
        .ok (joinAbs (if isAbsolutePath p then pathResolveAbs p else pathResolve2 root p)) :=
  rfl

theorem resolveSandboxPath_confines (root p : String) :
    if jsStartsWith (sandboxRel root p) ".." ∨ isAbsolutePath (sandboxRel root p) then
      resolveSandboxPath root p = .error ("Path is outside sandboxRoot: " ++ p)
    else
      ∃ t, resolveSandboxPath root p = .ok (joinAbs t) ∧
        pathResolveAbs root <+: t ∧ isAbsolutePath (joinAbs t) = true := by
  by_cases hesc : jsStartsWith (sandboxRel root p) ".." ∨ isAbsolutePath (sandboxRel root p)
  · rw [if_pos hesc, resolveSandboxPath_eq, if_pos hesc]
  · rw [if_neg hesc]
    set absSegs := if isAbsolutePath p then pathResolveAbs p else pathResolve2 root p with habs
    refine ⟨absSegs, ?_, ?_, isAbsolutePath_joinAbs absSegs⟩
    · rw [resolveSandboxPath_eq, if_neg hesc]
    · -- From ¬ startsWith "..": the common prefix exhausts the root segments.
      have hnorm : normAbs absSegs = absSegs := by
        rw [habs]
        by_cases hp : isAbsolutePath p <;>
          simp [hp, pathResolveAbs, pathResolve2, normAbs_normAbs]
      have hns : jsStartsWith (sandboxRel root p) ".." = false := by
        cases h : jsStartsWith (sandboxRel root p) ".." with
        | false => rfl
        | true => exact absurd (Or.inl h) hesc
      set f := pathResolveAbs root with hf
      have hcp : commonPrefixLen f absSegs = f.length := by
        by_contra hne
        have hlt : commonPrefixLen f absSegs < f.length :=
          lt_of_le_of_ne (commonPrefixLen_le_left f absSegs) hne
        obtain ⟨k, hk⟩ : ∃ k, f.length - commonPrefixLen f absSegs = k + 1 :=
          ⟨f.length - commonPrefixLen f absSegs - 1, by omega⟩
        have hrel : sandboxRel root p =
            joinSegs (".." ::
              (List.replicate k ".." ++ absSegs.drop (commonPrefixLen f absSegs))) := by
          simp only [sandboxRel, ← habs, pathRelativeSegs, hnorm, relSegsOf, ← hf, hk,
            List.replicate_succ]
          rfl
        rw [hrel, jsStartsWith_joinSegs_head] at hns
        exact Bool.true_eq_false.mp hns
      exact commonPrefixLen_eq_length_imp f absSegs hcp

theorem resolveSandboxPath_confines_witness :
    resolveSandboxPath "/s" "../x" = .error "Path is outside sandboxRoot: ../x" ∧
    (∃ t, resolveSandboxPath "/s" "a/b" = .ok (joinAbs t) ∧
      pathResolveAbs "/s" <+: t ∧ isAbsolutePath (joinAbs t) = true) := by
  constructor
  · have h := resolveSandboxPath_confines "/s" "../x"
    rw [if_pos (by decide)] at h
    exact h
  · have h := resolveSandboxPath_confines "/s" "a/b"
    rw [if_neg (by decide)] at h
    exact h

/-! ## Terminal policy and danger classification (terminalTools.ts 9–53, 110–149)

Policy regexes are opaque compiled values; each is modelled by its `test`
function (paired with its source text where the source text appears in a
message). -/

/-- `dangerousPatterns` entry. `argsRegexAnyOf` entries carry their source
text (used in the reason message) and their `test` function. -/
structure DangerousPattern where
  command : String
  argsAnyOf : Option (List String)
  argsRegexAnyOf : Option (List (String × (String → Bool)))

/-- The policy fields consulted by the tools modelled here (after
`loadTerminalPolicy` has filled the defaults). -/
structure TerminalPolicy where
  allowedCommands : List String
  blockedArgsRegex : List (String → Bool)
  dangerousCommands : List String
  dangerousPatterns : List DangerousPattern
  confirmTtlSeconds : Nat
  maxOutputChars : Nat

/-- The character class `[a-zA-Z0-9._-]`. -/
def isWordChar (c : Char) : Bool :=
  c.isAlphanum || c = '.' || c = '_' || c = '-'

/-- JS regex test `/^[a-zA-Z0-9._-]+$/.test(s)`. -/
def matchesWordChars (s : String) : Bool :=
  !s.data.isEmpty && s.data.all isWordChar

/-- `isSafeCommandName` (no slashes, no spaces). -/
def isSafeCommandName (cmd : String) : Bool := matchesWordChars cmd

/-- One `dangerousPatterns` rule applied to `(command, args)`. -/
def patternReason (command : String) (args : List String) (rule : DangerousPattern) :
    Option String :=
  if rule.command ≠ command then none
  else if (rule.argsAnyOf.getD []).any (fun a => args.contains a) then
    some ("Dangerous pattern matched for \"" ++ command ++ "\" (argsAnyOf)")
  else
    match rule.argsRegexAnyOf with
    | none => none
    | some regs =>
      match regs.find? (fun r => args.any r.2) with
      | some r => some ("Dangerous pattern matched for \"" ++ command ++ "\" (" ++ r.1 ++ ")")
      | none => none

/-- `isDangerous`: `none` = safe, `some reason` = requires confirmation. -/
def isDangerous (pol : TerminalPolicy) (command : String) (args : List String) :
    Option String :=
  if pol.dangerousCommands.contains command then
    some ("Command \"" ++ command ++ "\" is marked dangerous by policy")
  else pol.dangerousPatterns.findSome? (patternReason command args)

/-- First loop of `checkArgsAgainstPolicy`: every `blockedArgsRegex` pattern
against every argument. -/
def checkBlockedRegex (blocked : List (String → Bool)) (args : List String) :
    Except String Unit :=
  match blocked with
  | [] => .ok ()
  | re :: rest =>
    match args.find? re with
    | some bad => .error ("Blocked argument by policy: " ++ bad)
    | none => checkBlockedRegex rest args

/-- Second loop of `checkArgsAgainstPolicy`, for one argument: forbid `..`
anywhere and absolute paths resolving outside the sandbox. -/
def checkArgPath (rootAbs a : String) : Except String Unit :=
  if jsIncludes a ".." then .error ("Refusing argument containing \"..\": " ++ a)
  else if jsStartsWith a "/" then
    let rel := pathRelativeSegs rootAbs (pathResolveAbs a)
    if jsStartsWith rel ".." ∨ isAbsolutePath rel then
      .error ("Absolute path argument outside sandbox: " ++ a)
    else .ok ()
  else .ok ()

def checkArgsPaths (rootAbs : String) : List String → Except String Unit
  | [] => .ok ()
  | a :: rest =>
    match checkArgPath rootAbs a with
    | .error e => .error e
    | .ok () => checkArgsPaths rootAbs rest

/-- `checkArgsAgainstPolicy` (terminalTools.ts 131–149). -/
def checkArgsAgainstPolicy (pol : TerminalPolicy) (rootAbs : String)
    (args : List String) : Except String Unit :=
  match checkBlockedRegex pol.blockedArgsRegex args with
  | .error e => .error e
  | .ok () => checkArgsPaths rootAbs args

/-! ## Pending-confirmation store (terminalTools.ts 27–43, 156–175)

`ctx.pending` is a JS `Map<string, PendingConfirmation>`; it is modelled as
an insertion-ordered association list keyed by the `token` field. -/

structure PendingConfirmation where
  token : String
  stage : Nat
  createdAtMs : Nat
  expiresAtMs : Nat
  command : String
  args : List String
  cwd : String
  reason : String
deriving Repr, DecidableEq

abbrev PendMap := List PendingConfirmation

/-- JS `Map.prototype.get`. -/
def pendGet (st : PendMap) (tok : String) : Option PendingConfirmation :=
  st.find? (fun p => p.token == tok)

/-- JS `Map.prototype.set`: replace in place, else append. -/
def pendSet (st : PendMap) (p : PendingConfirmation) : PendMap :=
  if st.any (fun q => q.token == p.token) then
    st.map (fun q => if q.token == p.token then p else q)
  else st ++ [p]

/-- JS `Map.prototype.delete` (just the removal). -/
def pendDelete (st : PendMap) (tok : String) : PendMap :=
  st.filter (fun p => p.token != tok)

/-- `createPendingConfirmation`: fresh stage-1 record, inserted into the
pending map. `freshTok` stands for `crypto.randomUUID()`, `nowMs` for
`Date.now()`. -/
def createPendingConfirmation (pol : TerminalPolicy) (st : PendMap)
    (nowMs : Nat) (freshTok : String)
    (command : String) (args : List String) (cwdAbs reason : String) :
    PendingConfirmation × PendMap :=
  let ttlMs := pol.confirmTtlSeconds * 1000
  let pending : PendingConfirmation :=
    { token := freshTok, stage := 1, createdAtMs := nowMs,
      expiresAtMs := nowMs + ttlMs, command := command, args := args,
      cwd := cwdAbs, reason := reason }
  (pending, pendSet st pending)

/-! ## Process runner (terminalTools.ts 45–48, 390–423) -/

structure SpawnCall where
  command : String
  args : List String
  cwd : String
deriving Repr, DecidableEq

structure SpawnResult where
  output : String
  exitCode : Option Int
deriving Repr, DecidableEq

/-- The truncation suffix appended by `clampText`. -/
def truncSuffix (maxChars : Nat) : String :=
  "\n...[truncated to " ++ toString maxChars ++ " chars]"

/-- `clampText` (terminalTools.ts 45–48). -/
def clampText (s : String) (maxChars : Nat) : String :=
  if s.length ≤ maxChars then s else jsTake s maxChars ++ truncSuffix maxChars

/-- One stream's accumulation in `spawnAndCapture`: per `data` event the
chunk is appended and the buffer re-clamped when it exceeds the limit. -/
def accumStream (maxOutputChars : Nat) (chunks : List String) : String :=
  chunks.foldl
    (fun out d =>
      let o := out ++ d
      if o.length > maxOutputChars then clampText o maxOutputChars else o)
    ""

/-- `spawnAndCapture`, given the chunk sequences the child produced on
stdout and stderr and its exit code (`none` = killed by signal). The
`close` handler combines the streams, trims trailing whitespace and
substitutes `"(no output)"` for emptiness. -/
def spawnAndCapture (stdoutChunks stderrChunks : List String) (code : Option Int)
    (maxOutputChars : Nat) : SpawnResult :=
  let out := accumStream maxOutputChars stdoutChunks
  let err := accumStream maxOutputChars stderrChunks
  let combined := jsTrimEnd (out ++ (if err ≠ "" then "\n[stderr]\n" ++ err else ""))
  { output := if combined = "" then "(no output)" else combined, exitCode := code }

/-- Outcome of one `spawnAndCapture` call as seen by a tool: either the
`error` event fired (the promise rejects) or the child closed with the
given stream chunks and exit code. -/
abbrev SpawnOutcome := Except String (List String × List String × Option Int)

/-! ## Tool implementations (terminalTools.ts 177–388)

Each tool returns the new pending map (mutations performed before a throw
persist, as they do on `ctx.pending`), the list of spawn calls it made, and
its result. `auditRes` is the outcome of the (at most one) `appendAudit`
call on the taken path; a failed audit append is an uncaught rejection. -/

structure ConfirmEnvelope where
  token : String
  reason : String
  expiresAtMs : Nat
deriving Repr, DecidableEq

structure ToolOut where
  text : String
  requiresConfirmation : Option ConfirmEnvelope
deriving Repr, DecidableEq

/-- `toolRun` (terminalTools.ts 177–225). -/
def toolRun (pol : TerminalPolicy) (rootAbs : String) (st : PendMap)
    (nowMs : Nat) (freshTok : String) (spawnOut : SpawnOutcome)
    (auditRes : Except String Unit)
    (command : String) (args : List String) (cwd : Option String) :
    PendMap × List SpawnCall × Except String ToolOut :=
  match resolveSandboxPath rootAbs (cwd.getD ".") with
  | .error e => (st, [], .error e)
  | .ok cwdAbs =>
    if ¬ isSafeCommandName command then
      (st, [], .error ("Invalid command name: " ++ command))
    else if ¬ pol.allowedCommands.contains command then
      (st, [], .error ("Command not allowed: " ++ command))
    else
      match checkArgsAgainstPolicy pol rootAbs args with
      | .error e => (st, [], .error e)
      | .ok () =>
        match isDangerous pol command args with
        | some dangerReason =>
          let (pending, st') :=
            createPendingConfirmation pol st nowMs freshTok command args cwdAbs dangerReason
          (st', [],
            match auditRes with
            | .error e => .error e
            | .ok () =>
              .ok { text :=
                      "Refusing to execute dangerous command without confirmation.\n" ++
                      "Reason: " ++ dangerReason ++ "\n" ++
                      "Step 1/2: run: confirm " ++ pending.token ++ "\n",
                    requiresConfirmation :=
                      some ⟨pending.token, dangerReason, pending.expiresAtMs⟩ })
        | none =>
          match spawnOut with
          | .error e => (st, [⟨command, args, cwdAbs⟩], .error e)
          | .ok (oc, ec, code) =>
            let result := spawnAndCapture oc ec code pol.maxOutputChars
            (st, [⟨command, args, cwdAbs⟩],
              match auditRes with
              | .error e => .error e
              | .ok () => .ok { text := result.output, requiresConfirmation := none })

/-- `toolConfirm` (terminalTools.ts 227–315). The `ssh-keygen`
post-processing (best-effort `fs.chmod` with all failures swallowed) only
touches the filesystem; it changes no state modelled here and cannot alter
the result, so it contributes nothing to the embedding. -/
def toolConfirm (pol : TerminalPolicy) (st : PendMap)
    (nowMs : Nat) (freshTok : String) (spawnOut : SpawnOutcome)
    (auditRes : Except String Unit) (token : String) :
    PendMap × List SpawnCall × Except String ToolOut :=
  match pendGet st token with
  | none => (st, [], .error "Unknown confirmation token (maybe expired or already used)")
  | some pending =>
    if pending.expiresAtMs < nowMs then
      (pendDelete st token, [], .error "Confirmation token expired")
    else if pending.stage = 1 then
      let ttlMs := pol.confirmTtlSeconds * 1000
      let pending2 : PendingConfirmation :=
        { token := freshTok, stage := 2, createdAtMs := nowMs,
          expiresAtMs := nowMs + ttlMs, command := pending.command,
          args := pending.args, cwd := pending.cwd, reason := pending.reason }
      let st' := pendSet (pendDelete st token) pending2
      (st', [],
        match auditRes with
        | .error e => .error e
        | .ok () =>
          .ok { text :=
                  "Confirmation step 1/2 accepted.\n" ++
                  "Reason: " ++ pending.reason ++ "\n" ++
                  "Step 2/2: run: confirm " ++ pending2.token ++ "\n",
                requiresConfirmation := none })
    else
      let st' := pendDelete st token
      match spawnOut with
      | .error e => (st', [⟨pending.command, pending.args, pending.cwd⟩], .error e)
      | .ok (oc, ec, code) =>
        let result := spawnAndCapture oc ec code pol.maxOutputChars
        (st', [⟨pending.command, pending.args, pending.cwd⟩],
          match auditRes with
          | .error e => .error e
          | .ok () => .ok { text := result.output, requiresConfirmation := none })

/-- `toolCancel` (terminalTools.ts 317–321). -/
def toolCancel (st : PendMap) (auditRes : Except String Unit) (token : String) :
    PendMap × List SpawnCall × Except String ToolOut :=
  let existed := (pendGet st token).isSome
  (pendDelete st token, [],
    match auditRes with
    | .error e => .error e
    | .ok () =>
      .ok { text := if existed then "Cancelled pending confirmation."
                    else "No pending confirmation for that token.",
            requiresConfirmation := none })

/-- `ensureSafeSshKeyFileName` (terminalTools.ts 323–330). -/
def ensureSafeSshKeyFileName (name : String) : Except String String :=
  let trimmed := jsTrim name
  if trimmed = "" then .error "filename must be non-empty"
  else if jsIncludes trimmed "/" ∨ jsIncludes trimmed "\\" then
    .error "filename must not contain path separators"
  else if trimmed = "." ∨ trimmed = ".." then .error "invalid filename"
  else if ¬ matchesWordChars trimmed then .error "filename contains invalid characters"
  else .ok trimmed

/-- `toolGenerateSshKey` (terminalTools.ts 332–388). `home` is
`os.homedir()`; `mkdirRes` the outcome of the `fs.mkdir` of `~/.ssh`;
`keyExists` the combined result of the two `fs.stat` probes for the key and
its `.pub`. -/
def toolGenerateSshKey (pol : TerminalPolicy) (home : String) (st : PendMap)
    (nowMs : Nat) (freshTok : String)
    (mkdirRes : Except String Unit) (keyExists : Bool)
    (auditRes : Except String Unit)
    (ptype pfilename pcomment ppassphrase : Option String) (poverwrite : Option Bool) :
    PendMap × List SpawnCall × Except String ToolOut :=
  let keyType := ptype.getD "ed25519"
  match ensureSafeSshKeyFileName (pfilename.getD "id_ed25519") with
  | .error e => (st, [], .error e)
  | .ok fname =>
    let comment := pcomment.getD "smartos-mcp"
    let passphrase := ppassphrase.getD ""
    let overwrite := poverwrite.getD false
    let sshDir := joinAbs (pathResolve2 home ".ssh")
    let keyPath := sshDir ++ "/" ++ fname
    match mkdirRes with
    | .error e => (st, [], .error e)
    | .ok () =>
      if keyExists ∧ ¬ overwrite then
        (st, [], .error ("Key already exists at ~/.ssh/" ++ fname ++
          " (pass overwrite:true to replace)"))
      else
        let args := ["-t", keyType, "-f", keyPath, "-C", comment, "-N", passphrase]
        let reason :=
          "Requested SSH key generation under ~/.ssh.\n" ++
          "Type: " ++ keyType ++ "\n" ++
          "Target: ~/.ssh/" ++ fname ++ "\n" ++
          (if keyExists then "NOTE: existing key files will be overwritten.\n" else "") ++
          (if passphrase ≠ "" then "NOTE: a passphrase was provided.\n"
           else "NOTE: empty passphrase.\n")
        let (pending, st') :=
          createPendingConfirmation pol st nowMs freshTok "ssh-keygen" args home reason
        (st', [],
          match auditRes with
          | .error e => .error e
          | .ok () =>
            .ok { text :=
                    "Refusing to generate SSH key under ~/.ssh without confirmation.\n" ++
                    "Reason:\n" ++ reason ++ "\n" ++
                    "Step 1/2: run: confirm " ++ pending.token ++ "\n",
                  requiresConfirmation :=
                    some ⟨pending.token, reason, pending.expiresAtMs⟩ })

/-! ## One request step of the terminal server

Requests arrive serially; a step is one tool call with the outcomes of its
effectful sub-calls provided by an oracle. -/

inductive TermAction where
  | run (command : String) (args : List String) (cwd : Option String)
  | confirm (token : String)
  | cancel (token : String)
  | genKey (ptype pfilename pcomment ppassphrase : Option String) (poverwrite : Option Bool)

structure EffectOracle where
  nowMs : Nat
  freshTok : String
  spawnOut : SpawnOutcome
  auditRes : Except String Unit
  mkdirRes : Except String Unit
  keyExists : Bool

/-- Dispatch of one request among the confirmation-relevant tools (the file
tools neither spawn nor touch the pending map). -/
def stepTerminal (pol : TerminalPolicy) (rootAbs home : String) (st : PendMap)
    (o : EffectOracle) : TermAction → PendMap × List SpawnCall × Except String ToolOut
  | .run c a cw => toolRun pol rootAbs st o.nowMs o.freshTok o.spawnOut o.auditRes c a cw
  | .confirm t => toolConfirm pol st o.nowMs o.freshTok o.spawnOut o.auditRes t
  | .cancel t => toolCancel st o.auditRes t
  | .genKey a b c d e =>
      toolGenerateSshKey pol home st o.nowMs o.freshTok o.mkdirRes o.keyExists o.auditRes a b c d e

/-! ### Lemmas about the pending-confirmation store -/

theorem pendGet_pendSet_self (st : PendMap) (p : PendingConfirmation) :
    pendGet (pendSet st p) p.token = some p := by
  unfold pendSet pendGet
  split
  · rename_i hany
    induction st with
    | nil => simp at hany
    | cons q rest ih =>
        simp only [List.any_cons, Bool.or_eq_true] at hany
        by_cases hq : (q.token == p.token) = true
        · rw [List.map_cons, if_pos hq]
          exact @List.find?_cons_of_pos _ (fun r => r.token == p.token) p _ (by simp)
        · rcases hany with hany | hany
          · exact absurd hany hq
          · rw [List.map_cons, if_neg hq,
              @List.find?_cons_of_neg _ (fun r => r.token == p.token) q _ hq]
            exact ih hany
  · rename_i hany
    induction st with
    | nil =>
        simp only [List.nil_append]
        exact @List.find?_cons_of_pos _ (fun r => r.token == p.token) p _ (by simp)
    | cons q rest ih =>
        simp only [List.any_cons, Bool.or_eq_true, not_or] at hany
        rw [List.cons_append,
          @List.find?_cons_of_neg _ (fun r => r.token == p.token) q _ hany.1]
        exact ih hany.2

theorem pendGet_pendSet_ne (st : PendMap) (p : PendingConfirmation) (t : String)
    (h : t ≠ p.token) : pendGet (pendSet st p) t = pendGet st t := by
  have hpt : (p.token == t) = false := beq_eq_false_iff_ne.2 fun e => h e.symm
  unfold pendSet pendGet
  split
  · rename_i hany
    clear hany
    induction st with
    | nil => rfl
    | cons q rest ih =>
        by_cases hq : (q.token == p.token) = true
        · have hqp : q.token = p.token := beq_iff_eq.1 hq
          have hqt : (q.token == t) = false := by rw [hqp]; exact hpt
          rw [List.map_cons, if_pos hq,
            @List.find?_cons_of_neg _ (fun r => r.token == t) p _ (by simp [hpt]),
            @List.find?_cons_of_neg _ (fun r => r.token == t) q _ (by simp [hqt])]
          exact ih
        · rw [List.map_cons, if_neg hq]
          by_cases hqt : (q.token == t) = true
          · rw [@List.find?_cons_of_pos _ (fun r => r.token == t) q _ hqt,
              @List.find?_cons_of_pos _ (fun r => r.token == t) q _ hqt]
          · rw [@List.find?_cons_of_neg _ (fun r => r.token == t) q _ hqt,
              @List.find?_cons_of_neg _ (fun r => r.token == t) q _ hqt]
            exact ih
  · rw [List.find?_append]
    have hnil : List.find? (fun r => r.token == t) [p] = none := by
      rw [@List.find?_cons_of_neg _ (fun r => r.token == t) p _ (by simp [hpt])]
      rfl
    rw [hnil, Option.or_none]

theorem pendGet_pendDelete_self (st : PendMap) (t : String) :
    pendGet (pendDelete st t) t = none := by
  unfold pendDelete pendGet
  induction st with
  | nil => rfl
  | cons q rest ih =>
      by_cases hq : (q.token == t) = true
      · have hfil : ((q.token != t) = true) = False := by simp [bne, hq]
        rw [List.filter_cons, if_neg (by simp [hfil])]
        exact ih
      · have hbne : (q.token != t) = true := by
          simp only [bne, Bool.not_eq_true']
          exact Bool.not_eq_true _ ▸ (by simpa using hq)
        rw [List.filter_cons, if_pos hbne,
          @List.find?_cons_of_neg _ (fun r => r.token == t) q _ hq]
        exact ih

theorem pendGet_pendDelete_of_ne (st : PendMap) (t t' : String) (h : t ≠ t') :
    pendGet (pendDelete st t') t = pendGet st t := by
  unfold pendDelete pendGet
  induction st with
  | nil => rfl
  | cons q rest ih =>
      by_cases hq : (q.token == t') = true
      · have hqt : (q.token == t) = false := by
          have hq' : q.token = t' := beq_iff_eq.1 hq
          rw [hq']
          exact beq_eq_false_iff_ne.2 fun e => h e.symm
        have hfil : ((q.token != t') = true) = False := by simp [bne, hq]
        rw [List.filter_cons, if_neg (by simp [hfil]),
          @List.find?_cons_of_neg _ (fun r => r.token == t) q _ (by simp [hqt])]
        exact ih
      · have hbne : (q.token != t') = true := by
          simp only [bne, Bool.not_eq_true']
          exact Bool.not_eq_true _ ▸ (by simpa using hq)
        rw [List.filter_cons, if_pos hbne]
        by_cases hqt : (q.token == t) = true
        · rw [@List.find?_cons_of_pos _ (fun r => r.token == t) q _ hqt,
            @List.find?_cons_of_pos _ (fun r => r.token == t) q _ hqt]
        · rw [@List.find?_cons_of_neg _ (fun r => r.token == t) q _ hqt,
            @List.find?_cons_of_neg _ (fun r => r.token == t) q _ hqt]
          exact ih

theorem mem_pendSet (st : PendMap) (p q : PendingConfirmation)
    (h : q ∈ pendSet st p) : q = p ∨ q ∈ st := by
  unfold pendSet at h
  split at h
  · rcases List.mem_map.1 h with ⟨r, hr, hrq⟩
    by_cases hc : r.token == p.token
    · left; rw [if_pos hc] at hrq; exact hrq.symm
    · right; rw [if_neg hc] at hrq; exact hrq ▸ hr
  · rcases List.mem_append.1 h with h | h
    · right; exact h
    · left; simpa using h

theorem mem_pendDelete (st : PendMap) (t : String) (q : PendingConfirmation)
    (h : q ∈ pendDelete st t) : q ∈ st :=
  List.mem_of_mem_filter h

/-! ### Spawn characterization of each tool -/

/-- `toolRun` spawns only commands the danger classifier clears, and only
the requested `(command, args)`. -/
theorem toolRun_spawn_char (pol : TerminalPolicy) (rootAbs : String) (st : PendMap)
    (nowMs : Nat) (freshTok : String) (spawnOut : SpawnOutcome)
    (auditRes : Except String Unit) (command : String) (args : List String)
    (cwd : Option String) (s : SpawnCall)
    (h : s ∈ (toolRun pol rootAbs st nowMs freshTok spawnOut auditRes command args cwd).2.1) :
    s.command = command ∧ s.args = args ∧ isDangerous pol command args = none := by
  unfold toolRun at h
  split at h
  · simp at h
  · split at h
    · simp at h
    · split at h
      · simp at h
      · split at h
        · simp at h
        · split at h
          · simp at h
          · rename_i hdanger
            split at h <;> simp_all

/-- On a dangerous `(command, args)`, `toolRun` spawns nothing; when the
call succeeds its response carries the stage-1 confirmation envelope and
the pending map holds the freshly stored stage-1 record of the captured
payload. -/
theorem toolRun_dangerous_stage1 (pol : TerminalPolicy) (rootAbs : String) (st : PendMap)
    (nowMs : Nat) (freshTok : String) (spawnOut : SpawnOutcome)
    (auditRes : Except String Unit) (command : String) (args : List String)
    (cwd : Option String) (cwdAbs reason : String)
    (hcwd : resolveSandboxPath rootAbs (cwd.getD ".") = .ok cwdAbs)
    (h : isDangerous pol command args = some reason) :
    (toolRun pol rootAbs st nowMs freshTok spawnOut auditRes command args cwd).2.1 = [] ∧
    (∀ out, (toolRun pol rootAbs st nowMs freshTok spawnOut auditRes command args cwd).2.2 =
        .ok out →
      out.requiresConfirmation =
        some ⟨freshTok, reason, nowMs + pol.confirmTtlSeconds * 1000⟩ ∧
      pendGet (toolRun pol rootAbs st nowMs freshTok spawnOut auditRes command args cwd).1
          freshTok = some
        { token := freshTok, stage := 1, createdAtMs := nowMs,
          expiresAtMs := nowMs + pol.confirmTtlSeconds * 1000, command := command,
          args := args, cwd := cwdAbs, reason := reason }) := by
  unfold toolRun
  rw [hcwd]
  simp only [createPendingConfirmation]
  split
  · exact ⟨rfl, by intro out hout; simp at hout⟩
  · split
    · exact ⟨rfl, by intro out hout; simp at hout⟩
    · split
      · exact ⟨rfl, by intro out hout; simp at hout⟩
      · rw [h]
        refine ⟨rfl, ?_⟩
        intro out hout
        match auditRes with
        | .error e => simp at hout
        | .ok () =>
          simp only [Except.ok.injEq] at hout
          subst hout
          refine ⟨rfl, ?_⟩
          exact pendGet_pendSet_self st _

/-- `toolConfirm` spawns only from a live, non-stage-1 pending record, and
then exactly its stored payload. -/
theorem toolConfirm_spawn_char (pol : TerminalPolicy) (st : PendMap)
    (nowMs : Nat) (freshTok : String) (spawnOut : SpawnOutcome)
    (auditRes : Except String Unit) (token : String) (s : SpawnCall)
    (h : s ∈ (toolConfirm pol st nowMs freshTok spawnOut auditRes token).2.1) :
    ∃ p, pendGet st token = some p ∧ ¬ p.expiresAtMs < nowMs ∧ p.stage ≠ 1 ∧
      s = ⟨p.command, p.args, p.cwd⟩ := by
  unfold toolConfirm at h
  split at h
  · simp at h
  · rename_i p hp
    split at h
    · simp at h
    · split at h
      · simp at h
      · rename_i hexp hstage
        refine ⟨p, hp, hexp, hstage, ?_⟩
        split at h <;> simpa using h

theorem toolCancel_no_spawn (st : PendMap) (auditRes : Except String Unit)
    (token : String) : (toolCancel st auditRes token).2.1 = [] := rfl

theorem toolGenerateSshKey_no_spawn (pol : TerminalPolicy) (home : String)
    (st : PendMap) (nowMs : Nat) (freshTok : String)
    (mkdirRes : Except String Unit) (keyExists : Bool) (auditRes : Except String Unit)
    (ptype pfilename pcomment ppassphrase : Option String) (poverwrite : Option Bool) :
    (toolGenerateSshKey pol home st nowMs freshTok mkdirRes keyExists auditRes
      ptype pfilename pcomment ppassphrase poverwrite).2.1 = [] := by
  unfold toolGenerateSshKey
  split
  · rfl
  · split
    · rfl
    · dsimp only [createPendingConfirmation]
      split
      · rfl
      · rfl

/-- C2. Dangerous commands pass through the two-stage gate and never spawn
directly: a `run` whose `(command, args)` the danger classifier flags spawns
nothing and (when it succeeds) answers with a stage-1 confirmation token
whose record captures the payload; and across all four confirmation-related
tools, any spawn of a payload the classifier flags happens only in a
`confirm` step that consumes a live stage-2 record storing exactly that
payload. -/
theorem run_dangerous_two_stage_gate
    (pol : TerminalPolicy) (rootAbs home : String) (st : PendMap) (o : EffectOracle)
    (hstages : ∀ q ∈ st, q.stage = 1 ∨ q.stage = 2) :
    (∀ command args cwd cwdAbs reason,
      resolveSandboxPath rootAbs ((cwd : Option String).getD ".") = .ok cwdAbs →
      isDangerous pol command args = some reason →
      (stepTerminal pol rootAbs home st o (.run command args cwd)).2.1 = [] ∧
      ∀ out, (stepTerminal pol rootAbs home st o (.run command args cwd)).2.2 = .ok out →
        out.requiresConfirmation =
          some ⟨o.freshTok, reason, o.nowMs + pol.confirmTtlSeconds * 1000⟩ ∧
        pendGet (stepTerminal pol rootAbs home st o (.run command args cwd)).1 o.freshTok =
          some { token := o.freshTok, stage := 1, createdAtMs := o.nowMs,
                 expiresAtMs := o.nowMs + pol.confirmTtlSeconds * 1000,
                 command := command, args := args, cwd := cwdAbs, reason := reason }) ∧
    (∀ a s, s ∈ (stepTerminal pol rootAbs home st o a).2.1 →
      ∀ r, isDangerous pol s.command s.args = some r →
      ∃ p, a = .confirm p.token ∧ pendGet st p.token = some p ∧ p.stage = 2 ∧
        ¬ p.expiresAtMs < o.nowMs ∧ s = ⟨p.command, p.args, p.cwd⟩) := by
  constructor
  · intro command args cwd cwdAbs reason hcwd hdanger
    exact toolRun_dangerous_stage1 pol rootAbs st o.nowMs o.freshTok o.spawnOut o.auditRes
      command args cwd cwdAbs reason hcwd hdanger
  · intro a s hs r hr
    cases a with
    | run command args cwd =>
        obtain ⟨hc, ha, hnone⟩ := toolRun_spawn_char pol rootAbs st o.nowMs o.freshTok
          o.spawnOut o.auditRes command args cwd s hs
        rw [hc, ha] at hr
        rw [hnone] at hr
        exact absurd hr (by simp)
    | confirm token =>
        obtain ⟨p, hp, hexp, hstage, hsp⟩ := toolConfirm_spawn_char pol st o.nowMs o.freshTok
          o.spawnOut o.auditRes token s hs
        have htok : p.token = token := by
          have := List.find?_some hp
          simpa using this
        have hmem : p ∈ st := List.mem_of_find?_eq_some hp
        have h2 : p.stage = 2 := (hstages p hmem).resolve_left hstage
        exact ⟨p, by rw [htok], by rw [htok]; exact hp, h2, hexp, hsp⟩
    | cancel token => simp [stepTerminal, toolCancel_no_spawn] at hs
    | genKey a b c d e => simp [stepTerminal, toolGenerateSshKey_no_spawn] at hs

/-- C10. When `confirm` is handed a live token whose record is not stage 1,
it spawns exactly the stored `(command, args, cwd)` payload and removes the
token — for **every** policy: the statement quantifies over `pol` with no
allowlist, blocked-argument or danger-classifier condition, so no
re-validation happens at confirmation time, and a stored payload whose
command is absent from `allowedCommands` (such as the `ssh-keygen`
invocation issued by `generate_ssh_key`) is still executed. -/
theorem confirm_stage2_executes_stored_payload
    (pol : TerminalPolicy) (st : PendMap) (nowMs : Nat) (freshTok : String)
    (spawnOut : SpawnOutcome) (auditRes : Except String Unit)
    (token : String) (p : PendingConfirmation)
    (hget : pendGet st token = some p) (hstage : p.stage ≠ 1)
    (hexp : ¬ p.expiresAtMs < nowMs) :
    (toolConfirm pol st nowMs freshTok spawnOut auditRes token).2.1 =
      [⟨p.command, p.args, p.cwd⟩] ∧
    (toolConfirm pol st nowMs freshTok spawnOut auditRes token).1 =
      pendDelete st token := by
  unfold toolConfirm
  rw [hget]
  dsimp only
  rw [if_neg hexp, if_neg hstage]
  match spawnOut with
  | .error e => exact ⟨rfl, rfl⟩
  | .ok (oc, ec, code) =>
    match auditRes with
    | .error e => exact ⟨rfl, rfl⟩
    | .ok () => exact ⟨rfl, rfl⟩

/-- C7. A first call to `generate_ssh_key` never spawns: its spawn list is
empty for every argument combination and every outcome of its effectful
sub-calls; when the call succeeds it has unconditionally stored a fresh
stage-1 confirmation record for the curated
`ssh-keygen -t <type> -f <path> -C <comment> -N <passphrase>` invocation
(never executing it synchronously), and a success is only possible when the
filename validated and no unoverwritten key was in the way. -/
theorem generate_ssh_key_first_call_never_spawns
    (pol : TerminalPolicy) (home : String) (st : PendMap) (nowMs : Nat) (freshTok : String)
    (mkdirRes : Except String Unit) (keyExists : Bool) (auditRes : Except String Unit)
    (ptype pfilename pcomment ppassphrase : Option String) (poverwrite : Option Bool) :
    (toolGenerateSshKey pol home st nowMs freshTok mkdirRes keyExists auditRes
        ptype pfilename pcomment ppassphrase poverwrite).2.1 = [] ∧
    (∀ out, (toolGenerateSshKey pol home st nowMs freshTok mkdirRes keyExists auditRes
        ptype pfilename pcomment ppassphrase poverwrite).2.2 = .ok out →
      ∃ fname reason,
        ensureSafeSshKeyFileName (pfilename.getD "id_ed25519") = .ok fname ∧
        (keyExists = true → poverwrite.getD false = true) ∧
        out.requiresConfirmation =
          some ⟨freshTok, reason, nowMs + pol.confirmTtlSeconds * 1000⟩ ∧
        pendGet (toolGenerateSshKey pol home st nowMs freshTok mkdirRes keyExists auditRes
            ptype pfilename pcomment ppassphrase poverwrite).1 freshTok = some
          { token := freshTok, stage := 1, createdAtMs := nowMs,
            expiresAtMs := nowMs + pol.confirmTtlSeconds * 1000,
            command := "ssh-keygen",
            args := ["-t", ptype.getD "ed25519", "-f",
                     joinAbs (pathResolve2 home ".ssh") ++ "/" ++ fname, "-C",
                     pcomment.getD "smartos-mcp", "-N", ppassphrase.getD ""],
            cwd := home, reason := reason }) := by
  refine ⟨toolGenerateSshKey_no_spawn pol home st nowMs freshTok mkdirRes keyExists auditRes
    ptype pfilename pcomment ppassphrase poverwrite, ?_⟩
  intro out hout
  unfold toolGenerateSshKey at hout ⊢
  cases hsafe : ensureSafeSshKeyFileName (pfilename.getD "id_ed25519") with
  | error e => rw [hsafe] at hout; simp at hout
  | ok fname =>
    rw [hsafe] at hout
    dsimp only at hout ⊢
    cases mkdirRes with
    | error e => simp at hout
    | ok u =>
      cases u
      dsimp only [createPendingConfirmation] at hout ⊢
      by_cases hex : keyExists = true ∧ ¬ (poverwrite.getD false) = true
      · rw [if_pos hex] at hout
        simp at hout
      · rw [if_neg hex] at hout ⊢
        cases auditRes with
        | error e => simp at hout
        | ok u2 =>
          cases u2
          simp only [Except.ok.injEq] at hout
          subst hout
          refine ⟨fname, _, rfl, ?_, rfl, ?_⟩
          · intro hk
            by_contra hov
            exact hex ⟨hk, by simpa using hov⟩
          · exact pendGet_pendSet_self st _

theorem pendGet_pendDelete_none (st : PendMap) (t x : String)
    (h : pendGet st t = none) : pendGet (pendDelete st x) t = none := by
  by_cases hx : t = x
  · subst hx
    exact pendGet_pendDelete_self st t
  · rw [pendGet_pendDelete_of_ne st t x hx]
    exact h

/-- C4. Confirmation tokens are single-use. A `confirm` that consumes a live
token `t` (advancing stage 1 or executing otherwise) leaves no record under
`t`, whatever the spawn and audit outcomes; no later request carrying a
fresh token different from `t` reintroduces `t`; and presenting an absent
(consumed) token fails with the unknown-token error. -/
theorem confirm_tokens_single_use
    (pol : TerminalPolicy) (st : PendMap) (nowMs : Nat) (freshTok : String)
    (spawnOut : SpawnOutcome) (auditRes : Except String Unit) (t : String) :
    (∀ p, pendGet st t = some p → ¬ p.expiresAtMs < nowMs → freshTok ≠ t →
      pendGet (toolConfirm pol st nowMs freshTok spawnOut auditRes t).1 t = none) ∧
    (∀ (rootAbs home : String) (st' : PendMap) (o : EffectOracle) (a : TermAction),
      pendGet st' t = none → o.freshTok ≠ t →
      pendGet (stepTerminal pol rootAbs home st' o a).1 t = none) ∧
    (pendGet st t = none →
      (toolConfirm pol st nowMs freshTok spawnOut auditRes t).2.2 =
        .error "Unknown confirmation token (maybe expired or already used)") := by
  refine ⟨?_, ?_, ?_⟩
  · intro p hget hexp hfresh
    unfold toolConfirm
    rw [hget]
    dsimp only
    rw [if_neg hexp]
    by_cases hstage : p.stage = 1
    · rw [if_pos hstage]
      dsimp only
      rw [pendGet_pendSet_ne _ _ _ (fun e => hfresh e.symm)]
      exact pendGet_pendDelete_self st t
    · rw [if_neg hstage]
      match spawnOut with
      | .error e => exact pendGet_pendDelete_self st t
      | .ok (oc, ec, code) =>
        match auditRes with
        | .error e => exact pendGet_pendDelete_self st t
        | .ok () => exact pendGet_pendDelete_self st t
  · intro rootAbs home st' o a hnone hfresh
    cases a with
    | run c aargs cw =>
        unfold stepTerminal toolRun
        dsimp only
        cases hres : resolveSandboxPath rootAbs (cw.getD ".") with
        | error e => exact hnone
        | ok cwdAbs =>
          dsimp only
          by_cases hsafe : ¬ isSafeCommandName c = true
          · rw [if_pos hsafe]; exact hnone
          · rw [if_neg hsafe]
            by_cases hallow : ¬ pol.allowedCommands.contains c = true
            · rw [if_pos hallow]; exact hnone
            · rw [if_neg hallow]
              cases hargs : checkArgsAgainstPolicy pol rootAbs aargs with
              | error e => exact hnone
              | ok u =>
                cases u
                dsimp only
                cases hdang : isDangerous pol c aargs with
                | some r =>
                    dsimp only [createPendingConfirmation]
                    rw [pendGet_pendSet_ne _ _ _ (fun e => hfresh e.symm)]
                    exact hnone
                | none =>
                    cases o.spawnOut with
                    | error e => exact hnone
                    | ok trio =>
                      obtain ⟨oc, ec, code⟩ := trio
                      dsimp only
                      cases o.auditRes with
                      | error e => exact hnone
                      | ok u2 => cases u2; exact hnone
    | confirm tok =>
        unfold stepTerminal toolConfirm
        dsimp only
        cases hp : pendGet st' tok with
        | none => exact hnone
        | some p =>
          dsimp only
          by_cases hexp : p.expiresAtMs < o.nowMs
          · rw [if_pos hexp]
            exact pendGet_pendDelete_none st' t tok hnone
          · rw [if_neg hexp]
            by_cases hstage : p.stage = 1
            · rw [if_pos hstage]
              dsimp only
              rw [pendGet_pendSet_ne _ _ _ (fun e => hfresh e.symm)]
              exact pendGet_pendDelete_none st' t tok hnone
            · rw [if_neg hstage]
              cases o.spawnOut with
              | error e => exact pendGet_pendDelete_none st' t tok hnone
              | ok trio =>
                obtain ⟨oc, ec, code⟩ := trio
                dsimp only
                cases o.auditRes with
                | error e => exact pendGet_pendDelete_none st' t tok hnone
                | ok u2 => cases u2; exact pendGet_pendDelete_none st' t tok hnone
    | cancel tok =>
        unfold stepTerminal toolCancel
        dsimp only
        exact pendGet_pendDelete_none st' t tok hnone
    | genKey ta fb cc dd ee =>
        unfold stepTerminal toolGenerateSshKey
        dsimp only
        cases hvf : ensureSafeSshKeyFileName (fb.getD "id_ed25519") with
        | error e => exact hnone
        | ok fname =>
          dsimp only
          cases o.mkdirRes with
          | error e => exact hnone
          | ok u =>
            cases u
            dsimp only [createPendingConfirmation]
            by_cases hex : o.keyExists = true ∧ ¬ (ee.getD false) = true
            · rw [if_pos hex]; exact hnone
            · rw [if_neg hex]
              rw [pendGet_pendSet_ne _ _ _ (fun e => hfresh e.symm)]
              exact hnone
  · intro hnone
    unfold toolConfirm
    rw [hnone]

/-- C5 (amended), part of the pending-store invariant that does hold: a
stage-2 record appearing after a step is either an old record or was born
in this step by a `confirm` retiring a live stage-1 record with the same
`(command, args, cwd)` payload (and the same reason), under the fresh
token; and every record's stage stays in `{1, 2}`. -/
theorem stage2_born_only_by_retiring_stage1
    (pol : TerminalPolicy) (rootAbs home : String) (st : PendMap) (o : EffectOracle)
    (a : TermAction) :
    (∀ q, q ∈ (stepTerminal pol rootAbs home st o a).1 → q.stage = 2 →
      q ∈ st ∨ ∃ tok p, a = .confirm tok ∧ pendGet st tok = some p ∧ p.stage = 1 ∧
        ¬ p.expiresAtMs < o.nowMs ∧
        q = { token := o.freshTok, stage := 2, createdAtMs := o.nowMs,
              expiresAtMs := o.nowMs + pol.confirmTtlSeconds * 1000,
              command := p.command, args := p.args, cwd := p.cwd,
              reason := p.reason }) ∧
    ((∀ q ∈ st, q.stage = 1 ∨ q.stage = 2) →
      ∀ q ∈ (stepTerminal pol rootAbs home st o a).1, q.stage = 1 ∨ q.stage = 2) := by
  constructor
  · intro q hq hq2
    cases a with
    | run c aargs cw =>
        left
        unfold stepTerminal toolRun at hq
        dsimp only at hq
        split at hq
        · exact hq
        · split at hq
          · exact hq
          · split at hq
            · exact hq
            · split at hq
              · exact hq
              · split at hq
                · dsimp only [createPendingConfirmation] at hq
                  rcases mem_pendSet _ _ _ hq with rfl | hmem
                  · simp at hq2
                  · exact hmem
                · split at hq
                  · exact hq
                  · exact hq
    | confirm tok =>
        unfold stepTerminal toolConfirm at hq
        dsimp only at hq
        split at hq
        · exact Or.inl hq
        · rename_i p hp
          split at hq
          · exact Or.inl (mem_pendDelete _ _ _ hq)
          · split at hq
            · rename_i hexp hstage
              dsimp only at hq
              rcases mem_pendSet _ _ _ hq with rfl | hmem
              · exact Or.inr ⟨tok, p, rfl, hp, hstage, hexp, rfl⟩
              · exact Or.inl (mem_pendDelete _ _ _ hmem)
            · split at hq
              · exact Or.inl (mem_pendDelete _ _ _ hq)
              · split at hq
                · exact Or.inl (mem_pendDelete _ _ _ hq)
                · exact Or.inl (mem_pendDelete _ _ _ hq)
    | cancel tok =>
        unfold stepTerminal toolCancel at hq
        dsimp only at hq
        exact Or.inl (mem_pendDelete _ _ _ hq)
    | genKey a b c d e =>
        left
        unfold stepTerminal toolGenerateSshKey at hq
        dsimp only at hq
        split at hq
        · exact hq
        · split at hq
          · exact hq
          · dsimp only [createPendingConfirmation] at hq
            split at hq
            · exact hq
            · rcases mem_pendSet _ _ _ hq with rfl | hmem
              · simp at hq2
              · exact hmem
  · intro hstages q hq
    cases a with
    | run c aargs cw =>
        unfold stepTerminal toolRun at hq
        dsimp only at hq
        split at hq
        · exact hstages q hq
        · split at hq
          · exact hstages q hq
          · split at hq
            · exact hstages q hq
            · split at hq
              · exact hstages q hq
              · split at hq
                · dsimp only [createPendingConfirmation] at hq
                  rcases mem_pendSet _ _ _ hq with rfl | hmem
                  · exact Or.inl rfl
                  · exact hstages q hmem
                · split at hq
                  · exact hstages q hq
                  · exact hstages q hq
    | confirm tok =>
        unfold stepTerminal toolConfirm at hq
        dsimp only at hq
        split at hq
        · exact hstages q hq
        · split at hq
          · exact hstages q (mem_pendDelete _ _ _ hq)
          · split at hq
            · dsimp only at hq
              rcases mem_pendSet _ _ _ hq with rfl | hmem
              · exact Or.inr rfl
              · exact hstages q (mem_pendDelete _ _ _ hmem)
            · split at hq
              · exact hstages q (mem_pendDelete _ _ _ hq)
              · split at hq
                · exact hstages q (mem_pendDelete _ _ _ hq)
                · exact hstages q (mem_pendDelete _ _ _ hq)
    | cancel tok =>
        unfold stepTerminal toolCancel at hq
        dsimp only at hq
        exact hstages q (mem_pendDelete _ _ _ hq)
    | genKey a b c d e =>
        unfold stepTerminal toolGenerateSshKey at hq
        dsimp only at hq
        split at hq
        · exact hstages q hq
        · split at hq
          · exact hstages q hq
          · dsimp only [createPendingConfirmation] at hq
            split at hq
            · exact hstages q hq
            · rcases mem_pendSet _ _ _ hq with rfl | hmem
              · exact Or.inl rfl
              · exact hstages q hmem

/-! ## C3: audit failures and tool results -/

/-- A policy allowing only `echo`, nothing dangerous. -/
def polEcho : TerminalPolicy :=
  { allowedCommands := ["echo"], blockedArgsRegex := [], dangerousCommands := [],
    dangerousPatterns := [], confirmTtlSeconds := 90, maxOutputChars := 20000 }

/-- C3 (amended). An `appendAudit` rejection in `toolRun`'s executed branch
is not caught: the child was already spawned, but the tool call rejects with
the audit error instead of returning the captured output. -/
theorem toolRun_audit_error_propagates
    (pol : TerminalPolicy) (rootAbs : String) (st : PendMap) (nowMs : Nat)
    (freshTok : String) (oc ec : List String) (code : Option Int) (e : String)
    (command : String) (args : List String) (cwd : Option String) (cwdAbs : String)
    (hcwd : resolveSandboxPath rootAbs (cwd.getD ".") = .ok cwdAbs)
    (hsafe : isSafeCommandName command = true)
    (hallow : pol.allowedCommands.contains command = true)
    (hargs : checkArgsAgainstPolicy pol rootAbs args = .ok ())
    (hdanger : isDangerous pol command args = none) :
    toolRun pol rootAbs st nowMs freshTok (.ok (oc, ec, code)) (.error e)
        command args cwd =
      (st, [⟨command, args, cwdAbs⟩], .error e) := by
  unfold toolRun
  rw [hcwd]
  dsimp only
  rw [if_neg (fun hn => hn hsafe), if_neg (fun hn => hn hallow), hargs, hdanger]

/-- C3 fails on the code: with a failing audit append, `run` of a
non-dangerous allowlisted command spawns the child but returns the audit
error, not the captured output. -/
theorem audit_failure_fails_tool_call_counterexample :
    (toolRun polEcho "/s" [] 0 "tk" (.ok (["hello"], [], some 0))
        (.error "EIO: disk full") "echo" [] none).2.2 = .error "EIO: disk full" ∧
    (toolRun polEcho "/s" [] 0 "tk" (.ok (["hello"], [], some 0))
        (.error "EIO: disk full") "echo" [] none).2.1 = [⟨"echo", [], "/s"⟩] ∧
    (toolRun polEcho "/s" [] 0 "tk" (.ok (["hello"], [], some 0))
        (.ok ()) "echo" [] none).2.2 =
      .ok { text := "hello", requiresConfirmation := none } := by
  exact ⟨rfl, rfl, rfl⟩

theorem toolRun_audit_error_propagates_witness :
    toolRun polEcho "/s" [] 7 "tk2" (.ok (["hi"], [], some 0)) (.error "EIO")
        "echo" ["a"] none =
      ([], [⟨"echo", ["a"], "/s"⟩], .error "EIO") :=
  toolRun_audit_error_propagates polEcho "/s" [] 7 "tk2" ["hi"] [] (some 0) "EIO"
    "echo" ["a"] none "/s" rfl rfl rfl rfl rfl

/-! ## C6: output clamping bounds -/

theorem length_clampText (s : String) (m : Nat) :
    (clampText s m).length ≤ m + (truncSuffix m).length := by
  unfold clampText
  split
  · rename_i h
    omega
  · rw [String.length_append]
    have ht : (jsTake s m).length ≤ m := by
      simp only [jsTake, String.length_mk, List.length_take]
      omega
    omega

theorem length_accumStream (m : Nat) (chunks : List String) :
    (accumStream m chunks).length ≤ m + (truncSuffix m).length := by
  unfold accumStream
  suffices h : ∀ (acc : String), acc.length ≤ m + (truncSuffix m).length →
      (chunks.foldl
        (fun out d =>
          let o := out ++ d
          if o.length > m then clampText o m else o) acc).length ≤
        m + (truncSuffix m).length by
    refine h "" ?_
    have h0 : ("" : String).length = 0 := rfl
    omega
  induction chunks with
  | nil => intro acc hacc; simpa using hacc
  | cons d tl ih =>
      intro acc hacc
      simp only [List.foldl_cons]
      apply ih
      dsimp only
      split
      · exact length_clampText _ m
      · rename_i h
        omega

theorem length_jsTrimEnd_le (s : String) : (jsTrimEnd s).length ≤ s.length := by
  unfold jsTrimEnd
  simp only [String.length_mk, List.length_reverse]
  have : ∀ (l : List Char), (l.dropWhile jsIsWs).length ≤ l.length := by
    intro l
    induction l with
    | nil => simp
    | cons a t ih =>
        rw [List.dropWhile_cons]
        split
        · exact Nat.le_succ_of_le ih
        · exact Nat.le_refl _
  calc (s.data.reverse.dropWhile jsIsWs).length
      ≤ s.data.reverse.length := this _
    _ = s.length := by rw [List.length_reverse]; rfl

theorem length_truncSuffix_ge (m : Nat) : 25 ≤ (truncSuffix m).length := by
  unfold truncSuffix
  rw [String.length_append, String.length_append]
  have h1 : ("\n...[truncated to " : String).length = 18 := rfl
  have h2 : (" chars]" : String).length = 7 := rfl
  omega

/-- C6 (amended). Each captured stream is clamped to at most
`maxOutputChars` plus the truncation suffix; the combined output string the
runner returns is bounded by twice that, plus the stderr separator — the
single-stream bound does not apply to the combined return (see the
counterexample). -/
theorem spawnAndCapture_output_bound (oc ec : List String) (code : Option Int)
    (max : Nat) :
    (accumStream max oc).length ≤ max + (truncSuffix max).length ∧
    (accumStream max ec).length ≤ max + (truncSuffix max).length ∧
    (spawnAndCapture oc ec code max).output.length ≤
      2 * (max + (truncSuffix max).length) + ("\n[stderr]\n" : String).length := by
  refine ⟨length_accumStream max oc, length_accumStream max ec, ?_⟩
  have hsep : ("\n[stderr]\n" : String).length = 10 := rfl
  have hout := length_accumStream max oc
  have herr := length_accumStream max ec
  have hsfx := length_truncSuffix_ge max
  have hno : ("(no output)" : String).length = 11 := rfl
  unfold spawnAndCapture
  dsimp only
  set out := accumStream max oc with hdefout
  set err := accumStream max ec with hdeferr
  set tail := (if err ≠ "" then "\n[stderr]\n" ++ err else "") with hdeftail
  have htail : tail.length ≤ 10 + err.length := by
    rw [hdeftail]
    split
    · rw [String.length_append, hsep]
    · have h0 : ("" : String).length = 0 := rfl
      omega
  have hcomb : (jsTrimEnd (out ++ tail)).length ≤ out.length + tail.length := by
    calc (jsTrimEnd (out ++ tail)).length
        ≤ (out ++ tail).length := length_jsTrimEnd_le _
      _ = out.length + tail.length := String.length_append _ _
  split
  · omega
  · omega

/-- C6 fails on the code as stated of the *returned* combined output: with
`maxOutputChars = 1`, both streams clamp to 27 chars each, and the combined
return has 64 chars, exceeding `maxOutputChars + |truncation suffix| = 27`. -/
theorem captured_output_exceeds_single_clamp_counterexample :
    (spawnAndCapture ["ab"] ["cd"] (some 0) 1).output.length = 64 ∧
    ¬ ((spawnAndCapture ["ab"] ["cd"] (some 0) 1).output.length ≤
        1 + (truncSuffix 1).length) := by
  constructor
  · rfl
  · decide

/-! ## Concrete instances for the terminal-server claims -/

/-- A policy marking `rm` dangerous. -/
def polW : TerminalPolicy :=
  { allowedCommands := ["ls", "rm"], blockedArgsRegex := [],
    dangerousCommands := ["rm"], dangerousPatterns := [],
    confirmTtlSeconds := 90, maxOutputChars := 20000 }

def oW1 : EffectOracle :=
  { nowMs := 0, freshTok := "t1", spawnOut := .ok ([], [], some 0),
    auditRes := .ok (), mkdirRes := .ok (), keyExists := false }

def oW2 : EffectOracle :=
  { nowMs := 0, freshTok := "t2", spawnOut := .ok ([], [], some 0),
    auditRes := .ok (), mkdirRes := .ok (), keyExists := false }

def oW3 : EffectOracle :=
  { nowMs := 10, freshTok := "tok-2", spawnOut := .ok ([], [], some 0),
    auditRes := .ok (), mkdirRes := .ok (), keyExists := false }

/-- A live stage-1 record. -/
def pW1 : PendingConfirmation :=
  { token := "tok-A", stage := 1, createdAtMs := 0, expiresAtMs := 90000,
    command := "rm", args := ["-rf"], cwd := "/s", reason := "r1" }

/-- A live stage-2 record. -/
def pW2 : PendingConfirmation :=
  { token := "tok-2", stage := 2, createdAtMs := 0, expiresAtMs := 5000,
    command := "rm", args := ["-rf", "x"], cwd := "/s", reason := "r" }

/-- The stage-2 record born from `pW1` under oracle `oW3`. -/
def pS2 : PendingConfirmation :=
  { token := "tok-2", stage := 2, createdAtMs := 10, expiresAtMs := 90010,
    command := "rm", args := ["-rf"], cwd := "/s", reason := "r1" }

theorem run_dangerous_two_stage_gate_witness :
    (stepTerminal polW "/s" "/h" [] oW1 (.run "rm" ["x"] none)).2.1 = [] ∧
    (∃ p, TermAction.confirm "tok-2" = TermAction.confirm p.token ∧
      pendGet [pW2] p.token = some p ∧ p.stage = 2 ∧ ¬ p.expiresAtMs < oW1.nowMs ∧
      (⟨"rm", ["-rf", "x"], "/s"⟩ : SpawnCall) = ⟨p.command, p.args, p.cwd⟩) := by
  constructor
  · exact ((run_dangerous_two_stage_gate polW "/s" "/h" [] oW1
        (fun q hq => absurd hq (List.not_mem_nil q))).1
      "rm" ["x"] none "/s" "Command \"rm\" is marked dangerous by policy" rfl rfl).1
  · exact (run_dangerous_two_stage_gate polW "/s" "/h" [pW2] oW1
        (fun q hq => by rcases List.mem_singleton.1 hq with rfl; exact Or.inr rfl)).2
      (.confirm "tok-2") ⟨"rm", ["-rf", "x"], "/s"⟩ (by decide)
      "Command \"rm\" is marked dangerous by policy" rfl

theorem confirm_tokens_single_use_witness :
    pendGet (toolConfirm polW [pW1] 10 "tok-B" (.ok ([], [], some 0)) (.ok ())
      "tok-A").1 "tok-A" = none ∧
    pendGet (stepTerminal polW "/s" "/h" [] oW1 (.run "ls" [] none)).1 "tok-A" = none ∧
    (toolConfirm polW [] 10 "tok-B" (.ok ([], [], some 0)) (.ok ()) "tok-A").2.2 =
      .error "Unknown confirmation token (maybe expired or already used)" := by
  refine ⟨?_, ?_, ?_⟩
  · exact (confirm_tokens_single_use polW [pW1] 10 "tok-B" (.ok ([], [], some 0))
      (.ok ()) "tok-A").1 pW1 rfl (by decide) (by decide)
  · exact (confirm_tokens_single_use polW [] 10 "tok-B" (.ok ([], [], some 0))
      (.ok ()) "tok-A").2.1 "/s" "/h" [] oW1 (.run "ls" [] none) rfl (by decide)
  · exact (confirm_tokens_single_use polW [] 10 "tok-B" (.ok ([], [], some 0))
      (.ok ()) "tok-A").2.2 rfl

/-- C5 fails on the code: two dangerous `run` requests leave two pending
records in the map at once. -/
theorem pending_map_holds_two_records_counterexample :
    ((stepTerminal polW "/s" "/h"
        (stepTerminal polW "/s" "/h" [] oW1 (.run "rm" [] none)).1
        oW2 (.run "rm" [] none)).1).length = 2 ∧
    ¬ (((stepTerminal polW "/s" "/h"
        (stepTerminal polW "/s" "/h" [] oW1 (.run "rm" [] none)).1
        oW2 (.run "rm" [] none)).1).length ≤ 1) := by
  exact ⟨rfl, by decide⟩

theorem stage2_born_only_by_retiring_stage1_witness :
    pS2 ∈ (stepTerminal polW "/s" "/h" [pW1] oW3 (.confirm "tok-A")).1 ∧
    (pS2 ∈ [pW1] ∨ ∃ tok p, TermAction.confirm "tok-A" = .confirm tok ∧
      pendGet [pW1] tok = some p ∧ p.stage = 1 ∧ ¬ p.expiresAtMs < oW3.nowMs ∧
      pS2 = { token := oW3.freshTok, stage := 2, createdAtMs := oW3.nowMs,
              expiresAtMs := oW3.nowMs + polW.confirmTtlSeconds * 1000,
              command := p.command, args := p.args, cwd := p.cwd,
              reason := p.reason }) := by
  refine ⟨by decide, ?_⟩
  exact (stage2_born_only_by_retiring_stage1 polW "/s" "/h" [pW1] oW3
    (.confirm "tok-A")).1 pS2 (by decide) rfl

/-- The reason string `toolGenerateSshKey` builds for an all-defaults call. -/
def reasonW : String :=
  "Requested SSH key generation under ~/.ssh.\nType: ed25519\n" ++
  "Target: ~/.ssh/id_ed25519\nNOTE: empty passphrase.\n"

/-- The successful all-defaults `generate_ssh_key` response. -/
def genKeyOutW : ToolOut :=
  { text :=
      "Refusing to generate SSH key under ~/.ssh without confirmation.\n" ++
      "Reason:\n" ++ reasonW ++ "\nStep 1/2: run: confirm tok-g\n",
    requiresConfirmation := some ⟨"tok-g", reasonW, 91000⟩ }

theorem generate_ssh_key_first_call_never_spawns_witness :
    (toolGenerateSshKey polW "/h" [] 1000 "tok-g" (.ok ()) false (.ok ())
        none none none none none).2.1 = [] ∧
    (∃ fname reason,
      ensureSafeSshKeyFileName ((none : Option String).getD "id_ed25519") = .ok fname ∧
      (false = true → (none : Option Bool).getD false = true) ∧
      genKeyOutW.requiresConfirmation =
        some ⟨"tok-g", reason, 1000 + polW.confirmTtlSeconds * 1000⟩ ∧
      pendGet (toolGenerateSshKey polW "/h" [] 1000 "tok-g" (.ok ()) false (.ok ())
          none none none none none).1 "tok-g" = some
        { token := "tok-g", stage := 1, createdAtMs := 1000,
          expiresAtMs := 1000 + polW.confirmTtlSeconds * 1000,
          command := "ssh-keygen",
          args := ["-t", (none : Option String).getD "ed25519", "-f",
                   joinAbs (pathResolve2 "/h" ".ssh") ++ "/" ++ fname, "-C",
                   (none : Option String).getD "smartos-mcp", "-N",
                   (none : Option String).getD ""],
          cwd := "/h", reason := reason }) :=
  ⟨(generate_ssh_key_first_call_never_spawns polW "/h" [] 1000 "tok-g" (.ok ()) false
      (.ok ()) none none none none none).1,
   (generate_ssh_key_first_call_never_spawns polW "/h" [] 1000 "tok-g" (.ok ()) false
      (.ok ()) none none none none none).2 genKeyOutW rfl⟩

/-- A policy whose allowlist does not contain `ssh-keygen` and which even
marks it dangerous. -/
def polNoKeygen : TerminalPolicy :=
  { allowedCommands := ["ls"], blockedArgsRegex := [],
    dangerousCommands := ["ssh-keygen"], dangerousPatterns := [],
    confirmTtlSeconds := 90, maxOutputChars := 20000 }

/-- A live stage-2 record for the curated `ssh-keygen` invocation. -/
def pKeygen2 : PendingConfirmation :=
  { token := "kg-2", stage := 2, createdAtMs := 0, expiresAtMs := 91000,
    command := "ssh-keygen",
    args := ["-t", "ed25519", "-f", "/h/.ssh/id_ed25519", "-C", "smartos-mcp",
             "-N", ""],
    cwd := "/h", reason := "ssh" }

/-! ## JSON values (client/src/config.ts)

The client manipulates parsed JSON (`JSON.parse` output). JS objects are
insertion-ordered key–value sequences; numbers are modelled as integers
(the repository's actions carry no fractional numbers, and floating-point
is outside the model); `JSON.parse`/`JSON.stringify` are platform builtins
modelled from the ECMA-404 grammar below. -/

mutual
inductive Json where
  | null : Json
  | bool (b : Bool) : Json
  | num (n : Int) : Json
  | str (s : String) : Json
  | arr (xs : JsonList) : Json
  | obj (fs : JsonFields) : Json
deriving DecidableEq

inductive JsonList where
  | nil : JsonList
  | cons (hd : Json) (tl : JsonList) : JsonList
deriving DecidableEq

inductive JsonFields where
  | nil : JsonFields
  | cons (k : String) (v : Json) (tl : JsonFields) : JsonFields
deriving DecidableEq
end

/-! ### `JSON.stringify` (compact form, as the client calls it) -/

/-- JSON string escaping of one character, as `JSON.stringify` performs it:
the two mandatory escapes, the five short control escapes, `\u00XX` for the
remaining control characters, everything else verbatim. -/
def escapeChar (c : Char) : List Char :=
  if c = '"' then ['\\', '"']
  else if c = '\\' then ['\\', '\\']
  else if c = '\n' then ['\\', 'n']
  else if c = '\r' then ['\\', 'r']
  else if c = '\t' then ['\\', 't']
  else if c = Char.ofNat 8 then ['\\', 'b']
  else if c = Char.ofNat 12 then ['\\', 'f']
  else if c.toNat < 32 then
    ['\\', 'u', '0', '0', Nat.digitChar (c.toNat / 16), Nat.digitChar (c.toNat % 16)]
  else [c]

/-- A JSON string literal: quote, escaped body, quote. -/
def escapeString (s : String) : List Char :=
  '"' :: ((s.data.map escapeChar).flatten ++ ['"'])

/-- Decimal digits of a natural number, most significant first. -/
def natToChars (n : Nat) : List Char :=
  if n = 0 then ['0'] else ((Nat.digits 10 n).map Nat.digitChar).reverse

/-- Decimal rendering of an integer. -/
def intToChars (n : Int) : List Char :=
  if n < 0 then '-' :: natToChars n.natAbs else natToChars n.toNat

mutual
def stringifyJ : Json → List Char
  | .null => ("null").data
  | .bool true => ("true").data
  | .bool false => ("false").data
  | .num n => intToChars n
  | .str s => escapeString s
  | .arr xs => '[' :: (stringifyArr xs ++ [']'])
  | .obj fs => '{' :: (stringifyObj fs ++ ['}'])

def stringifyArr : JsonList → List Char
  | .nil => []
  | .cons v tl => stringifyJ v ++ stringifyArrTail tl

def stringifyArrTail : JsonList → List Char
  | .nil => []
  | .cons v tl => ',' :: (stringifyJ v ++ stringifyArrTail tl)

def stringifyObj : JsonFields → List Char
  | .nil => []
  | .cons k v tl => escapeString k ++ ':' :: (stringifyJ v ++ stringifyObjTail tl)

def stringifyObjTail : JsonFields → List Char
  | .nil => []
  | .cons k v tl => ',' :: (escapeString k ++ ':' :: (stringifyJ v ++ stringifyObjTail tl))
end

/-- `JSON.stringify` as a `String`. -/
def jsonStringifyStr (v : Json) : String := ⟨stringifyJ v⟩

/-! ### `JSON.parse` (recursive descent over chars, fuelled) -/

/-- The JSON whitespace class (exactly space, tab, line feed, carriage
return). -/
def isJsonWs (c : Char) : Bool :=
  c = ' ' ∨ c = '\t' ∨ c = '\n' ∨ c = '\r'

def skipWs (cs : List Char) : List Char := cs.dropWhile isJsonWs

def hexVal (c : Char) : Option Nat :=
  if '0' ≤ c ∧ c ≤ '9' then some (c.toNat - 48)
  else if 'a' ≤ c ∧ c ≤ 'f' then some (c.toNat - 87)
  else if 'A' ≤ c ∧ c ≤ 'F' then some (c.toNat - 55)
  else none

def escDecode (e : Char) : Option Char :=
  if e = '"' then some '"'
  else if e = '\\' then some '\\'
  else if e = '/' then some '/'
  else if e = 'n' then some '\n'
  else if e = 'r' then some '\r'
  else if e = 't' then some '\t'
  else if e = 'b' then some (Char.ofNat 8)
  else if e = 'f' then some (Char.ofNat 12)
  else none

/-- Body of a JSON string after the opening quote: the decoded characters
and the remainder after the closing quote. -/
def parseStringBody : List Char → Option (List Char × List Char)
  | [] => none
  | c :: cs =>
    if c = '"' then some ([], cs)
    else if c = '\\' then
      match cs with
      | [] => none
      | e :: cs' =>
        if e = 'u' then
          match cs' with
          | h1 :: h2 :: h3 :: h4 :: cs'' =>
            match hexVal h1, hexVal h2, hexVal h3, hexVal h4 with
            | some a, some b, some c2, some d =>
              (parseStringBody cs'').map
                (fun p => (Char.ofNat (a * 4096 + b * 256 + c2 * 16 + d) :: p.1, p.2))
            | _, _, _, _ => none
          | _ => none
        else
          match escDecode e with
          | some c2 => (parseStringBody cs').map (fun p => (c2 :: p.1, p.2))
          | none => none
    else (parseStringBody cs).map (fun p => (c :: p.1, p.2))

/-- Value of a maximal digit run, most significant first. -/
def digitsToNat (l : List Char) : Nat :=
  l.foldl (fun a c => a * 10 + (c.toNat - 48)) 0

/-- A JSON number token (integer part; the model has no fractional
numbers). -/
def parseNum (cs : List Char) : Option (Json × List Char) :=
  match cs with
  | [] => none
  | c :: rest =>
    if c = '-' then
      let ds := rest.takeWhile Char.isDigit
      if ds.isEmpty then none
      else some (.num (-(digitsToNat ds : Int)), rest.dropWhile Char.isDigit)
    else
      let ds := (c :: rest).takeWhile Char.isDigit
      if ds.isEmpty then none
      else some (.num (digitsToNat ds), (c :: rest).dropWhile Char.isDigit)

mutual
def parseVal : Nat → List Char → Option (Json × List Char)
  | 0, _ => none
  | f + 1, cs =>
    match skipWs cs with
    | [] => none
    | c :: rest =>
      if c = '"' then (parseStringBody rest).map (fun p => (.str ⟨p.1⟩, p.2))
      else if c = '[' then
        (match skipWs rest with
         | [] => none
         | c2 :: r2 =>
           if c2 = ']' then some (.arr .nil, r2)
           else (parseArrElems f (c2 :: r2)).map (fun p => (.arr p.1, p.2)))
      else if c = '{' then
        (match skipWs rest with
         | [] => none
         | c2 :: r2 =>
           if c2 = '}' then some (.obj .nil, r2)
           else (parseObjMembers f (c2 :: r2)).map (fun p => (.obj p.1, p.2)))
      else if ['n', 'u', 'l', 'l'].isPrefixOf (c :: rest) then
        some (.null, (c :: rest).drop 4)
      else if ['t', 'r', 'u', 'e'].isPrefixOf (c :: rest) then
        some (.bool true, (c :: rest).drop 4)
      else if ['f', 'a', 'l', 's', 'e'].isPrefixOf (c :: rest) then
        some (.bool false, (c :: rest).drop 5)
      else if c = '-' ∨ c.isDigit then parseNum (c :: rest)
      else none

def parseArrElems : Nat → List Char → Option (JsonList × List Char)
  | 0, _ => none
  | f + 1, cs =>
    match parseVal f cs with
    | none => none
    | some (v, r) =>
      match skipWs r with
      | [] => none
      | c2 :: r2 =>
        if c2 = ',' then
          (match parseArrElems f r2 with
           | some (tl, r3) => some (.cons v tl, r3)
           | none => none)
        else if c2 = ']' then some (.cons v .nil, r2)
        else none

def parseObjMembers : Nat → List Char → Option (JsonFields × List Char)
  | 0, _ => none
  | f + 1, cs =>
    match skipWs cs with
    | [] => none
    | c :: rest =>
      if c = '"' then
        (match parseStringBody rest with
         | none => none
         | some (k, r) =>
           match skipWs r with
           | [] => none
           | c2 :: r2 =>
             if c2 = ':' then
               (match parseVal f r2 with
                | none => none
                | some (v, r3) =>
                  match skipWs r3 with
                  | [] => none
                  | c3 :: r4 =>
                    if c3 = ',' then
                      (match parseObjMembers f r4 with
                       | some (tl, r5) => some (.cons ⟨k⟩ v tl, r5)
                       | none => none)
                    else if c3 = '}' then some (.cons ⟨k⟩ v .nil, r4)
                    else none)
             else none)
      else none
end

/-! ### `extractFirstJsonObjectString` (config.ts 159–196)

The scanner walks from the first `{`, tracking depth and string/escape
state, and returns the slice up to the character that brings the depth back
to zero. State is matched structurally (`inStr`, `escape` as `Bool`
patterns) so that the JS branch structure is preserved: inside a string an
escaped character is always consumed, a quote toggles the string flag, and
the depth test happens only outside strings. -/

def extractLoop : List Char → Int → Bool → Bool → List Char → Option (List Char)
  | [], _, _, _, _ => none
  | c :: cs, depth, true, true, acc => extractLoop cs depth true false (c :: acc)
  | c :: cs, depth, true, false, acc =>
      if c = '\\' then extractLoop cs depth true true (c :: acc)
      else if c = '"' then extractLoop cs depth false false (c :: acc)
      else extractLoop cs depth true false (c :: acc)
  | c :: cs, depth, false, _, acc =>
      if c = '"' then extractLoop cs depth true false (c :: acc)
      else
        let d : Int := if c = '{' then depth + 1 else if c = '}' then depth - 1 else depth
        if d = 0 then some ((c :: acc).reverse)
        else extractLoop cs d false false (c :: acc)

def extractFirstJsonObjectString (s : String) : Option String :=
  let cs := s.data.dropWhile (fun c => !(c == '{'))
  match cs with
  | [] => none
  | _ => (extractLoop cs 0 false false []).map (fun l => (⟨l⟩ : String))

/-- `JSON.parse`: parse one value, then require only whitespace to remain.
The fuel `|s| + 1` bounds the recursion depth, which consumption makes
sufficient (proved for serializer output below). -/
def jsonParse (s : String) : Except String Json :=
  match parseVal (s.data.length + 1) s.data with
  | some (v, rest) =>
    if (skipWs rest).isEmpty then .ok v
    else .error "Unexpected non-whitespace character after JSON data"
  | none => .error "Unexpected token in JSON"

/-! ### Round-trip: `jsonParse ∘ jsonStringify = id`

Character-class facts are finite and settled by `decide`; the structural
argument is a mutual induction over the value. -/

theorem digitChar_class : ∀ m, m < 10 →
    (Nat.digitChar m).isDigit = true ∧ isJsonWs (Nat.digitChar m) = false ∧
    (Nat.digitChar m).toNat - 48 = m ∧ hexVal (Nat.digitChar m) = some m ∧
    Nat.digitChar m ≠ '"' ∧ Nat.digitChar m ≠ '\\' ∧ Nat.digitChar m ≠ '[' ∧
    Nat.digitChar m ≠ '{' ∧ Nat.digitChar m ≠ ']' ∧ Nat.digitChar m ≠ '}' ∧
    Nat.digitChar m ≠ ',' ∧ Nat.digitChar m ≠ '-' ∧ Nat.digitChar m ≠ 'n' ∧
    Nat.digitChar m ≠ 't' ∧ Nat.digitChar m ≠ 'f' := by decide

theorem hexDigitChar_class : ∀ m, m < 16 →
    hexVal (Nat.digitChar m) = some m ∧ Nat.digitChar m ≠ '"' ∧
    Nat.digitChar m ≠ '\\' := by decide

/-- Every character of `natToChars n` is `Nat.digitChar` of a digit. -/
theorem mem_natToChars (n : Nat) :
    ∀ c ∈ natToChars n, ∃ m, m < 10 ∧ c = Nat.digitChar m := by
  intro c hc
  unfold natToChars at hc
  split at hc
  · rcases List.mem_singleton.1 hc with rfl
    exact ⟨0, by norm_num, rfl⟩
  · rw [List.mem_reverse] at hc
    rcases List.mem_map.1 hc with ⟨m, hm, rfl⟩
    exact ⟨m, Nat.digits_lt_base (by norm_num) hm, rfl⟩

theorem natToChars_ne_nil (n : Nat) : natToChars n ≠ [] := by
  unfold natToChars
  split
  · simp
  · rename_i h
    simp only [ne_eq, List.reverse_eq_nil_iff, List.map_eq_nil_iff]
    exact Nat.digits_ne_nil_iff_ne_zero.2 h

theorem foldl_eq_ofDigits (ds : List Nat) :
    ds.reverse.foldl (fun a d => a * 10 + d) 0 = Nat.ofDigits 10 ds := by
  induction ds with
  | nil => simp [Nat.ofDigits]
  | cons d tl ih =>
      rw [List.reverse_cons, List.foldl_append, ih, Nat.ofDigits_cons]
      simp only [List.foldl_cons, List.foldl_nil]
      ring

theorem foldl_digitChar_eq (l : List Nat) (h : ∀ d ∈ l, d < 10) :
    ∀ a, l.foldl (fun a c => a * 10 + ((Nat.digitChar c).toNat - 48)) a =
      l.foldl (fun a d => a * 10 + d) a := by
  induction l with
  | nil => intro a; rfl
  | cons d tl ih =>
      intro a
      simp only [List.foldl_cons]
      rw [(digitChar_class d (h d (by simp))).2.2.1]
      exact ih (fun d hd => h d (by simp [hd])) _

theorem digitsToNat_natToChars (n : Nat) : digitsToNat (natToChars n) = n := by
  by_cases h0 : n = 0
  · subst h0; decide
  · unfold natToChars digitsToNat
    rw [if_neg h0, ← List.map_reverse, List.foldl_map]
    have hlt : ∀ d ∈ (Nat.digits 10 n).reverse, d < 10 := fun d hd =>
      Nat.digits_lt_base (by norm_num) (List.mem_reverse.1 hd)
    rw [foldl_digitChar_eq _ hlt 0, foldl_eq_ofDigits, Nat.ofDigits_digits]

theorem takeWhile_append_all {p : Char → Bool} (l rest : List Char)
    (hall : ∀ c ∈ l, p c = true)
    (hrest : ∀ c, rest.head? = some c → p c = false) :
    (l ++ rest).takeWhile p = l ∧ (l ++ rest).dropWhile p = rest := by
  induction l with
  | nil =>
      simp only [List.nil_append]
      cases rest with
      | nil => simp
      | cons c cs =>
          have := hrest c rfl
          simp [List.takeWhile_cons, List.dropWhile_cons, this]
  | cons a l ih =>
      have ha : p a = true := hall a (by simp)
      have := ih (fun c hc => hall c (by simp [hc]))
      simp [List.takeWhile_cons, List.dropWhile_cons, ha, this.1, this.2]

/-- The number case of the round trip: decimal rendering parses back,
provided nothing directly after it is a digit. -/
theorem parseNum_intToChars (n : Int) (rest : List Char)
    (hrest : ∀ c, rest.head? = some c → c.isDigit = false) :
    parseNum (intToChars n ++ rest) = some (.num n, rest) := by
  have hdigits : ∀ k : Nat, ∀ c ∈ natToChars k, c.isDigit = true := by
    intro k c hc
    obtain ⟨m, hm, rfl⟩ := mem_natToChars k c hc
    exact (digitChar_class m hm).1
  by_cases hn : n < 0
  · unfold intToChars
    rw [if_pos hn]
    obtain ⟨c, cs, hcs⟩ : ∃ c cs, natToChars n.natAbs = c :: cs := by
      cases h : natToChars n.natAbs with
      | nil => exact absurd h (natToChars_ne_nil _)
      | cons c cs => exact ⟨c, cs, rfl⟩
    have hsplit := takeWhile_append_all (p := Char.isDigit) (natToChars n.natAbs) rest
      (hdigits n.natAbs) hrest
    unfold parseNum
    simp only [List.cons_append, if_true]
    rw [hsplit.1, hsplit.2]
    have hne : (natToChars n.natAbs).isEmpty = false := by
      rw [hcs]; rfl
    rw [hne]
    simp only [Bool.false_eq_true, if_false]
    rw [digitsToNat_natToChars]
    have : -(n.natAbs : Int) = n := by omega
    rw [this]
  · unfold intToChars
    rw [if_neg hn]
    obtain ⟨c, cs, hcs⟩ : ∃ c cs, natToChars n.toNat = c :: cs := by
      cases h : natToChars n.toNat with
      | nil => exact absurd h (natToChars_ne_nil _)
      | cons c cs => exact ⟨c, cs, rfl⟩
    have hcdig : c.isDigit = true := by
      have : c ∈ natToChars n.toNat := by rw [hcs]; simp
      exact hdigits n.toNat c this
    have hcneg : ¬ c = '-' := by
      have : c ∈ natToChars n.toNat := by rw [hcs]; simp
      obtain ⟨m, hm, rfl⟩ := mem_natToChars _ c this
      exact (digitChar_class m hm).2.2.2.2.2.2.2.2.2.2.2.1
    have hsplit := takeWhile_append_all (p := Char.isDigit) (natToChars n.toNat) rest
      (hdigits n.toNat) hrest
    unfold parseNum
    rw [hcs]
    simp only [List.cons_append]
    rw [if_neg hcneg]
    rw [← List.cons_append, ← hcs, hsplit.1, hsplit.2]
    have hne : (natToChars n.toNat).isEmpty = false := by
      rw [hcs]; rfl
    rw [hne]
    simp only [Bool.false_eq_true, if_false]
    rw [digitsToNat_natToChars]
    have : (n.toNat : Int) = n := by omega
    rw [this]

theorem parseStringBody_simple_escape (e c : Char) (he : escDecode e = some c)
    (hu : ¬ e = 'u') (cs : List Char) :
    parseStringBody ('\\' :: e :: cs) =
      (parseStringBody cs).map (fun p => (c :: p.1, p.2)) := by
  rw [parseStringBody.eq_def]
  dsimp only
  rw [if_neg (by decide), if_pos rfl, if_neg hu, he]

theorem parseStringBody_plain (c : Char) (h1 : ¬ c = '"') (h2 : ¬ c = '\\')
    (cs : List Char) :
    parseStringBody (c :: cs) =
      (parseStringBody cs).map (fun p => (c :: p.1, p.2)) := by
  rw [parseStringBody.eq_def]
  dsimp only
  rw [if_neg h1, if_neg h2]

theorem parseStringBody_hex (c : Char) (h : c.toNat < 32) (cs : List Char) :
    parseStringBody ('\\' :: 'u' :: '0' :: '0' :: Nat.digitChar (c.toNat / 16) ::
        Nat.digitChar (c.toNat % 16) :: cs) =
      (parseStringBody cs).map (fun p => (c :: p.1, p.2)) := by
  have h16 : c.toNat / 16 < 16 := by omega
  have h16' : c.toNat % 16 < 16 := Nat.mod_lt _ (by norm_num)
  rw [parseStringBody.eq_def]
  dsimp only
  rw [if_neg (by decide), if_pos rfl, if_pos rfl]
  have hv0 : hexVal '0' = some 0 := by decide
  rw [hv0, (hexDigitChar_class _ h16).1, (hexDigitChar_class _ h16').1]
  dsimp only
  have harith : 0 * 4096 + 0 * 256 + (c.toNat / 16) * 16 + c.toNat % 16 = c.toNat := by
    omega
  rw [harith, Char.ofNat_toNat]

theorem parseStringBody_escapeChar (c : Char) (cs : List Char) :
    parseStringBody (escapeChar c ++ cs) =
      (parseStringBody cs).map (fun p => (c :: p.1, p.2)) := by
  unfold escapeChar
  by_cases h1 : c = '"'
  · subst h1; rw [if_pos rfl]
    exact parseStringBody_simple_escape '"' '"' (by decide) (by decide) cs
  · rw [if_neg h1]
    by_cases h2 : c = '\\'
    · subst h2; rw [if_pos rfl]
      exact parseStringBody_simple_escape '\\' '\\' (by decide) (by decide) cs
    · rw [if_neg h2]
      by_cases h3 : c = '\n'
      · subst h3; rw [if_pos rfl]
        exact parseStringBody_simple_escape 'n' '\n' (by decide) (by decide) cs
      · rw [if_neg h3]
        by_cases h4 : c = '\r'
        · subst h4; rw [if_pos rfl]
          exact parseStringBody_simple_escape 'r' '\r' (by decide) (by decide) cs
        · rw [if_neg h4]
          by_cases h5 : c = '\t'
          · subst h5; rw [if_pos rfl]
            exact parseStringBody_simple_escape 't' '\t' (by decide) (by decide) cs
          · rw [if_neg h5]
            by_cases h6 : c = Char.ofNat 8
            · subst h6; rw [if_pos rfl]
              exact parseStringBody_simple_escape 'b' (Char.ofNat 8) (by decide)
                (by decide) cs
            · rw [if_neg h6]
              by_cases h7 : c = Char.ofNat 12
              · subst h7; rw [if_pos rfl]
                exact parseStringBody_simple_escape 'f' (Char.ofNat 12) (by decide)
                  (by decide) cs
              · rw [if_neg h7]
                by_cases h8 : c.toNat < 32
                · rw [if_pos h8]
                  exact parseStringBody_hex c h8 cs
                · rw [if_neg h8]
                  exact parseStringBody_plain c h1 h2 cs

/-- A serialized string body followed by its closing quote parses back to
the original characters. -/
theorem parseStringBody_escape (l rest : List Char) :
    parseStringBody ((l.map escapeChar).flatten ++ ('"' :: rest)) = some (l, rest) := by
  induction l with
  | nil =>
      simp only [List.map_nil, List.flatten_nil, List.nil_append]
      rw [parseStringBody.eq_def]
      dsimp only
      rw [if_pos rfl]
  | cons c tl ih =>
      simp only [List.map_cons, List.flatten_cons, List.append_assoc]
      rw [parseStringBody_escapeChar c _, ih]
      rfl

/-! Node count of a value, bounding the parser fuel it needs. -/

mutual
def sizeJ : Json → Nat
  | .null => 1
  | .bool _ => 1
  | .num _ => 1
  | .str _ => 1
  | .arr xs => sizeL xs + 1
  | .obj fs => sizeF fs + 1

def sizeL : JsonList → Nat
  | .nil => 0
  | .cons v tl => sizeJ v + sizeL tl + 1

def sizeF : JsonFields → Nat
  | .nil => 0
  | .cons _ v tl => sizeJ v + sizeF tl + 1
end

theorem one_le_sizeJ (v : Json) : 1 ≤ sizeJ v := by
  cases v <;> simp only [sizeJ] <;> omega

/-- Shape and classification of the first serialized character of a value:
never whitespace, never a closing bracket. -/
theorem stringifyJ_head_cons (v : Json) :
    ∃ c cs, stringifyJ v = c :: cs ∧ isJsonWs c = false ∧ ¬ c = ']' ∧ ¬ c = '}' := by
  have hok : ∀ c : Char, c ∈ ['n', 't', 'f', '-', '"', '[', '{'] →
      isJsonWs c = false ∧ ¬ c = ']' ∧ ¬ c = '}' := by decide
  cases v with
  | null => exact ⟨'n', _, rfl, hok 'n' (by decide)⟩
  | bool b =>
      cases b with
      | true => exact ⟨'t', _, rfl, hok 't' (by decide)⟩
      | false => exact ⟨'f', _, rfl, hok 'f' (by decide)⟩
  | num n =>
      show ∃ c cs, intToChars n = c :: cs ∧ _
      unfold intToChars
      split
      · exact ⟨'-', _, rfl, hok '-' (by decide)⟩
      · obtain ⟨c, cs, hcs⟩ : ∃ c cs, natToChars n.toNat = c :: cs := by
          cases h : natToChars n.toNat with
          | nil => exact absurd h (natToChars_ne_nil _)
          | cons c cs => exact ⟨c, cs, rfl⟩
        obtain ⟨m, hm, rfl⟩ := mem_natToChars n.toNat c (by rw [hcs]; simp)
        have hc := digitChar_class m hm
        exact ⟨_, cs, hcs, hc.2.1, hc.2.2.2.2.2.2.2.2.1, hc.2.2.2.2.2.2.2.2.2.1⟩
  | str s => exact ⟨'"', _, rfl, hok '"' (by decide)⟩
  | arr xs => exact ⟨'[', _, rfl, hok '[' (by decide)⟩
  | obj fs => exact ⟨'{', _, rfl, hok '{' (by decide)⟩

theorem skipWs_cons_of_not_ws (c : Char) (cs : List Char) (h : isJsonWs c = false) :
    skipWs (c :: cs) = c :: cs := by
  simp [skipWs, List.dropWhile_cons, h]

theorem skipWs_stringify (v : Json) (rest : List Char) :
    skipWs (stringifyJ v ++ rest) = stringifyJ v ++ rest := by
  obtain ⟨c, cs, hv, hws, _, _⟩ := stringifyJ_head_cons v
  rw [hv, List.cons_append, skipWs_cons_of_not_ws _ _ hws]

mutual
theorem sizeJ_le (v : Json) : sizeJ v ≤ (stringifyJ v).length := by
  cases v with
  | null => simp [sizeJ, stringifyJ]
  | bool b => cases b <;> simp [sizeJ, stringifyJ]
  | num n =>
      have h := natToChars_ne_nil n.toNat
      have h' := natToChars_ne_nil n.natAbs
      simp only [sizeJ, stringifyJ, intToChars]
      split
      · simp
      · exact List.length_pos.2 h
  | str s =>
      simp [sizeJ, stringifyJ, escapeString]
  | arr xs =>
      cases xs with
      | nil => simp [sizeJ, sizeL, stringifyJ, stringifyArr]
      | cons v tl =>
          have h1 := sizeJ_le v
          have h2 := sizeL_le tl
          simp only [sizeJ, sizeL, stringifyJ, stringifyArr, List.length_cons,
            List.length_append]
          omega
  | obj fs =>
      cases fs with
      | nil => simp [sizeJ, sizeF, stringifyJ, stringifyObj]
      | cons k v tl =>
          have h1 := sizeJ_le v
          have h2 := sizeF_le tl
          simp only [sizeJ, sizeF, stringifyJ, stringifyObj, List.length_cons,
            List.length_append]
          omega

theorem sizeL_le (tl : JsonList) : sizeL tl ≤ (stringifyArrTail tl).length := by
  cases tl with
  | nil => simp [sizeL, stringifyArrTail]
  | cons v tl =>
      have h1 := sizeJ_le v
      have h2 := sizeL_le tl
      simp only [sizeL, stringifyArrTail, List.length_cons, List.length_append]
      omega

theorem sizeF_le (tl : JsonFields) : sizeF tl ≤ (stringifyObjTail tl).length := by
  cases tl with
  | nil => simp [sizeF, stringifyObjTail]
  | cons k v tl =>
      have h1 := sizeJ_le v
      have h2 := sizeF_le tl
      simp only [sizeF, stringifyObjTail, List.length_cons, List.length_append,
        escapeString]
      omega
end

/-- Head shape of an integer rendering. -/
theorem intToChars_head (n : Int) :
    ∃ c cs, intToChars n = c :: cs ∧
      (c = '-' ∨ ∃ m, m < 10 ∧ c = Nat.digitChar m) := by
  unfold intToChars
  split
  · exact ⟨'-', _, rfl, Or.inl rfl⟩
  · obtain ⟨c, cs, hcs⟩ : ∃ c cs, natToChars n.toNat = c :: cs := by
      cases h : natToChars n.toNat with
      | nil => exact absurd h (natToChars_ne_nil _)
      | cons c cs => exact ⟨c, cs, rfl⟩
    obtain ⟨m, hm, rfl⟩ := mem_natToChars n.toNat c (by rw [hcs]; simp)
    exact ⟨_, cs, hcs, Or.inr ⟨m, hm, rfl⟩⟩

theorem head_arrTail_not_digit (tl : JsonList) (rest : List Char) :
    ∀ c, (stringifyArrTail tl ++ (']' :: rest)).head? = some c → c.isDigit = false := by
  cases tl with
  | nil =>
      intro c hc
      simp only [stringifyArrTail, List.nil_append, List.head?_cons,
        Option.some.injEq] at hc
      subst hc; decide
  | cons v tl =>
      intro c hc
      simp only [stringifyArrTail, List.cons_append, List.head?_cons,
        Option.some.injEq] at hc
      subst hc; decide

theorem head_objTail_not_digit (tl : JsonFields) (rest : List Char) :
    ∀ c, (stringifyObjTail tl ++ ('}' :: rest)).head? = some c → c.isDigit = false := by
  cases tl with
  | nil =>
      intro c hc
      simp only [stringifyObjTail, List.nil_append, List.head?_cons,
        Option.some.injEq] at hc
      subst hc; decide
  | cons k v tl =>
      intro c hc
      simp only [stringifyObjTail, List.cons_append, List.head?_cons,
        Option.some.injEq] at hc
      subst hc; decide

mutual
/-- The core of the round trip: a serialized value followed by anything
that cannot extend its final token parses back to exactly that value, for
any fuel of at least its node count. -/
theorem parseVal_stringify (v : Json) : ∀ (f : Nat) (rest : List Char),
    sizeJ v ≤ f → (∀ c, rest.head? = some c → c.isDigit = false) →
    parseVal f (stringifyJ v ++ rest) = some (v, rest) := by
  intro f rest hf hrest
  obtain ⟨f', rfl⟩ : ∃ f', f = f' + 1 := ⟨f - 1, by have := one_le_sizeJ v; omega⟩
  cases v with
  | null =>
      rw [parseVal.eq_def]
      dsimp only [stringifyJ]
      simp only [List.cons_append, List.nil_append]
      rw [skipWs_cons_of_not_ws _ _ (by decide)]
      dsimp only
      rw [if_neg (by decide), if_neg (by decide), if_neg (by decide),
        if_pos (show (['n', 'u', 'l', 'l'].isPrefixOf
          ('n' :: 'u' :: 'l' :: 'l' :: rest)) = true by simp [List.isPrefixOf])]
      rfl
  | bool b =>
      cases b with
      | true =>
          rw [parseVal.eq_def]
          dsimp only [stringifyJ]
          simp only [List.cons_append, List.nil_append]
          rw [skipWs_cons_of_not_ws _ _ (by decide)]
          dsimp only
          rw [if_neg (by decide), if_neg (by decide), if_neg (by decide),
            if_neg (show ¬ (['n', 'u', 'l', 'l'].isPrefixOf
              ('t' :: 'r' :: 'u' :: 'e' :: rest)) = true by simp [List.isPrefixOf]),
            if_pos (show (['t', 'r', 'u', 'e'].isPrefixOf
              ('t' :: 'r' :: 'u' :: 'e' :: rest)) = true by simp [List.isPrefixOf])]
          rfl
      | false =>
          rw [parseVal.eq_def]
          dsimp only [stringifyJ]
          simp only [List.cons_append, List.nil_append]
          rw [skipWs_cons_of_not_ws _ _ (by decide)]
          dsimp only
          rw [if_neg (by decide), if_neg (by decide), if_neg (by decide),
            if_neg (show ¬ (['n', 'u', 'l', 'l'].isPrefixOf
              ('f' :: 'a' :: 'l' :: 's' :: 'e' :: rest)) = true by simp [List.isPrefixOf]),
            if_neg (show ¬ (['t', 'r', 'u', 'e'].isPrefixOf
              ('f' :: 'a' :: 'l' :: 's' :: 'e' :: rest)) = true by simp [List.isPrefixOf]),
            if_pos (show (['f', 'a', 'l', 's', 'e'].isPrefixOf
              ('f' :: 'a' :: 'l' :: 's' :: 'e' :: rest)) = true by simp [List.isPrefixOf])]
          rfl
  | num n =>
      obtain ⟨c, cs, hcs, hcds⟩ := intToChars_head n
      have hq : ¬ c = '"' := by
        rcases hcds with rfl | ⟨m, hm, rfl⟩
        · decide
        · obtain ⟨_, _, _, _, h5, _⟩ := digitChar_class m hm
          exact h5
      have hbk : ¬ c = '[' := by
        rcases hcds with rfl | ⟨m, hm, rfl⟩
        · decide
        · obtain ⟨_, _, _, _, _, _, h7, _⟩ := digitChar_class m hm
          exact h7
      have hbc : ¬ c = '{' := by
        rcases hcds with rfl | ⟨m, hm, rfl⟩
        · decide
        · obtain ⟨_, _, _, _, _, _, _, h8, _⟩ := digitChar_class m hm
          exact h8
      have hn2 : ¬ c = 'n' := by
        rcases hcds with rfl | ⟨m, hm, rfl⟩
        · decide
        · obtain ⟨_, _, _, _, _, _, _, _, _, _, _, _, h13, _⟩ := digitChar_class m hm
          exact h13
      have ht2 : ¬ c = 't' := by
        rcases hcds with rfl | ⟨m, hm, rfl⟩
        · decide
        · obtain ⟨_, _, _, _, _, _, _, _, _, _, _, _, _, h14, _⟩ := digitChar_class m hm
          exact h14
      have hf2 : ¬ c = 'f' := by
        rcases hcds with rfl | ⟨m, hm, rfl⟩
        · decide
        · obtain ⟨_, _, _, _, _, _, _, _, _, _, _, _, _, _, h15⟩ := digitChar_class m hm
          exact h15
      have hws : isJsonWs c = false := by
        rcases hcds with rfl | ⟨m, hm, rfl⟩
        · decide
        · exact (digitChar_class m hm).2.1
      have hnum : c = '-' ∨ c.isDigit = true := by
        rcases hcds with rfl | ⟨m, hm, rfl⟩
        · exact Or.inl rfl
        · exact Or.inr (digitChar_class m hm).1
      rw [parseVal.eq_def]
      dsimp only [stringifyJ]
      rw [hcs]
      simp only [List.cons_append, List.nil_append]
      rw [skipWs_cons_of_not_ws _ _ hws]
      dsimp only
      rw [if_neg hq, if_neg hbk, if_neg hbc,
        if_neg (show ¬ (['n', 'u', 'l', 'l'].isPrefixOf (c :: (cs ++ rest))) = true by
          simp only [List.isPrefixOf, Bool.and_eq_true, beq_iff_eq]
          intro h'
          exact hn2 h'.1.symm),
        if_neg (show ¬ (['t', 'r', 'u', 'e'].isPrefixOf (c :: (cs ++ rest))) = true by
          simp only [List.isPrefixOf, Bool.and_eq_true, beq_iff_eq]
          intro h'
          exact ht2 h'.1.symm),
        if_neg (show ¬ (['f', 'a', 'l', 's', 'e'].isPrefixOf (c :: (cs ++ rest))) = true by
          simp only [List.isPrefixOf, Bool.and_eq_true, beq_iff_eq]
          intro h'
          exact hf2 h'.1.symm),
        if_pos hnum]
      rw [← List.cons_append, ← hcs]
      exact parseNum_intToChars n rest hrest
  | str s =>
      rw [parseVal.eq_def]
      dsimp only [stringifyJ, escapeString]
      simp only [List.cons_append, List.nil_append, List.append_assoc]
      rw [skipWs_cons_of_not_ws _ _ (by decide)]
      dsimp only
      rw [if_pos rfl]
      rw [parseStringBody_escape]
      rfl
  | arr xs =>
      cases xs with
      | nil =>
          rw [parseVal.eq_def]
          dsimp only [stringifyJ, stringifyArr]
          simp only [List.nil_append, List.cons_append]
          rw [skipWs_cons_of_not_ws _ _ (by decide)]
          dsimp only
          rw [if_neg (by decide), if_pos rfl]
          rw [skipWs_cons_of_not_ws _ _ (by decide)]
          dsimp only
          rw [if_pos rfl]
      | cons v tl =>
          rw [parseVal.eq_def]
          dsimp only [stringifyJ, stringifyArr]
          simp only [List.cons_append, List.nil_append, List.append_assoc]
          rw [skipWs_cons_of_not_ws _ _ (by decide)]
          dsimp only
          rw [if_neg (by decide), if_pos rfl]
          rw [skipWs_stringify v (stringifyArrTail tl ++ (']' :: rest))]
          obtain ⟨c2, cs2, hv2, hws2, hne2, _⟩ := stringifyJ_head_cons v
          rw [hv2]
          simp only [List.cons_append]
          rw [if_neg hne2]
          rw [← List.cons_append, ← hv2]
          have hsz : sizeL (.cons v tl) ≤ f' := by
            simp only [sizeJ, sizeL] at hf ⊢
            omega
          rw [parseArrElems_stringify v tl f' rest hsz]
          rfl
  | obj fs =>
      cases fs with
      | nil =>
          rw [parseVal.eq_def]
          dsimp only [stringifyJ, stringifyObj]
          simp only [List.nil_append, List.cons_append]
          rw [skipWs_cons_of_not_ws _ _ (by decide)]
          dsimp only
          rw [if_neg (by decide), if_neg (by decide), if_pos rfl]
          rw [skipWs_cons_of_not_ws _ _ (by decide)]
          dsimp only
          rw [if_pos rfl]
      | cons k v tl =>
          rw [parseVal.eq_def]
          dsimp only [stringifyJ, stringifyObj]
          simp only [List.cons_append, List.nil_append, List.append_assoc]
          rw [skipWs_cons_of_not_ws _ _ (by decide)]
          dsimp only
          rw [if_neg (by decide), if_neg (by decide), if_pos rfl]
          rw [show escapeString k = '"' :: ((k.data.map escapeChar).flatten ++ ['"'])
            from rfl]
          simp only [List.cons_append, List.nil_append, List.append_assoc]
          rw [skipWs_cons_of_not_ws _ _ (by decide)]
          dsimp only
          rw [if_neg (by decide)]
          rw [show ('"' : Char) :: ((k.data.map escapeChar).flatten ++
              '"' :: ':' :: (stringifyJ v ++ (stringifyObjTail tl ++ ('}' :: rest)))) =
            escapeString k ++ (':' :: (stringifyJ v ++ (stringifyObjTail tl ++ ('}' :: rest))))
            from by simp [escapeString]]
          have hsz : sizeF (.cons k v tl) ≤ f' := by
            simp only [sizeJ, sizeF] at hf ⊢
            omega
          rw [parseObjMembers_stringify k v tl f' rest hsz]
          rfl
termination_by sizeOf v

/-- One or more serialized array elements, then the closing bracket. -/
theorem parseArrElems_stringify (v : Json) (tl : JsonList) :
    ∀ (f : Nat) (rest : List Char),
    sizeL (.cons v tl) ≤ f →
    parseArrElems f (stringifyJ v ++ (stringifyArrTail tl ++ (']' :: rest))) =
      some (.cons v tl, rest) := by
  intro f rest hsz
  obtain ⟨f', rfl⟩ : ∃ f', f = f' + 1 := ⟨f - 1, by simp only [sizeL] at hsz; omega⟩
  rw [parseArrElems.eq_def]
  dsimp only
  rw [parseVal_stringify v f' (stringifyArrTail tl ++ (']' :: rest))
    (by simp only [sizeL] at hsz; omega) (head_arrTail_not_digit tl rest)]
  dsimp only
  cases tl with
  | nil =>
      dsimp only [stringifyArrTail]
      simp only [List.nil_append]
      rw [skipWs_cons_of_not_ws _ _ (by decide)]
      dsimp only
      rw [if_neg (by decide), if_pos rfl]
  | cons v2 tl2 =>
      dsimp only [stringifyArrTail]
      simp only [List.cons_append, List.nil_append, List.append_assoc]
      rw [skipWs_cons_of_not_ws _ _ (by decide)]
      dsimp only
      rw [if_pos rfl]
      rw [parseArrElems_stringify v2 tl2 f' rest (by simp only [sizeL] at hsz ⊢; omega)]
termination_by 1 + sizeOf v + sizeOf tl

/-- One or more serialized object members, then the closing brace. -/
theorem parseObjMembers_stringify (k : String) (v : Json) (tl : JsonFields) :
    ∀ (f : Nat) (rest : List Char),
    sizeF (.cons k v tl) ≤ f →
    parseObjMembers f (escapeString k ++
        (':' :: (stringifyJ v ++ (stringifyObjTail tl ++ ('}' :: rest))))) =
      some (.cons k v tl, rest) := by
  intro f rest hsz
  obtain ⟨f', rfl⟩ : ∃ f', f = f' + 1 := ⟨f - 1, by simp only [sizeF] at hsz; omega⟩
  rw [parseObjMembers.eq_def]
  dsimp only
  rw [show escapeString k = '"' :: ((k.data.map escapeChar).flatten ++ ['"']) from rfl]
  simp only [List.cons_append, List.append_assoc, List.singleton_append]
  rw [skipWs_cons_of_not_ws _ _ (by decide)]
  dsimp only
  rw [if_pos rfl]
  rw [parseStringBody_escape]
  dsimp only
  simp only [List.nil_append]
  rw [skipWs_cons_of_not_ws _ _ (by decide)]
  dsimp only
  rw [if_pos rfl]
  rw [parseVal_stringify v f' (stringifyObjTail tl ++ ('}' :: rest))
    (by simp only [sizeF] at hsz; omega) (head_objTail_not_digit tl rest)]
  dsimp only
  cases tl with
  | nil =>
      dsimp only [stringifyObjTail]
      simp only [List.nil_append]
      rw [skipWs_cons_of_not_ws _ _ (by decide)]
      dsimp only
      rw [if_neg (by decide), if_pos rfl]
  | cons k2 v2 tl2 =>
      dsimp only [stringifyObjTail]
      simp only [List.cons_append, List.nil_append, List.append_assoc]
      rw [skipWs_cons_of_not_ws _ _ (by decide)]
      dsimp only
      rw [if_pos rfl]
      rw [parseObjMembers_stringify k2 v2 tl2 f' rest
        (by simp only [sizeF] at hsz ⊢; omega)]
termination_by 1 + sizeOf v + sizeOf tl
end

/-- Parsing the full serialization of a value consumes it entirely. -/
theorem jsonParse_stringify (v : Json) : jsonParse ⟨stringifyJ v⟩ = .ok v := by
  unfold jsonParse
  have hlen : sizeJ v ≤ (stringifyJ v).length + 1 := le_trans (sizeJ_le v) (by omega)
  have h := parseVal_stringify v ((stringifyJ v).length + 1) [] hlen
    (by intro c hc; simp at hc)
  rw [List.append_nil] at h
  rw [show (⟨stringifyJ v⟩ : String).data = stringifyJ v from rfl, h]
  rfl

/-! ### The scanner extracts a whole serialized object

A chunk is *neutral* when scanning it from any positive depth outside a
string just pushes its characters into the accumulator without returning. -/

def NeutralChunk (chunk : List Char) : Prop :=
  ∀ (d : Int), 1 ≤ d → ∀ (rest acc : List Char),
    extractLoop (chunk ++ rest) d false false acc =
      extractLoop rest d false false (chunk.reverse ++ acc)

theorem neutralChunk_nil : NeutralChunk [] := by
  intro d hd rest acc
  simp

theorem neutralChunk_append {a b : List Char} (ha : NeutralChunk a)
    (hb : NeutralChunk b) : NeutralChunk (a ++ b) := by
  intro d hd rest acc
  rw [List.append_assoc, ha d hd (b ++ rest) acc, hb d hd rest _,
    List.reverse_append, List.append_assoc]

theorem neutralChunk_plain (c : Char) (h1 : ¬ c = '"') (h2 : ¬ c = '{')
    (h3 : ¬ c = '}') : NeutralChunk [c] := by
  intro d hd rest acc
  show extractLoop (c :: rest) d false false acc = _
  rw [extractLoop.eq_def]
  dsimp only
  rw [if_neg h1, if_neg h2, if_neg h3, if_neg (by omega : ¬ d = 0)]
  rfl

theorem neutralChunk_of_all_plain (l : List Char)
    (h : ∀ c ∈ l, ¬ c = '"' ∧ ¬ c = '{' ∧ ¬ c = '}') : NeutralChunk l := by
  induction l with
  | nil => exact neutralChunk_nil
  | cons c tl ih =>
      have hc := h c (by simp)
      have := neutralChunk_append (neutralChunk_plain c hc.1 hc.2.1 hc.2.2)
        (ih (fun c hcm => h c (by simp [hcm])))
      simpa using this

/-- Scanning an escaped string body in string mode pushes it through. -/
theorem extractLoop_string_body (l : List Char) :
    ∀ (rest acc : List Char) (d : Int),
    extractLoop ((l.map escapeChar).flatten ++ rest) d true false acc =
      extractLoop rest d true false (((l.map escapeChar).flatten).reverse ++ acc) := by
  induction l with
  | nil => intro rest acc d; simp
  | cons c tl ih =>
      intro rest acc d
      simp only [List.map_cons, List.flatten_cons, List.append_assoc,
        List.reverse_append]
      have hstep : ∀ (rest' acc' : List Char),
          extractLoop (escapeChar c ++ rest') d true false acc' =
            extractLoop rest' d true false ((escapeChar c).reverse ++ acc') := by
        intro rest' acc'
        unfold escapeChar
        by_cases e1 : c = '"'
        · subst e1
          rw [if_pos rfl]
          show extractLoop ('\\' :: '"' :: rest') d true false acc' = _
          rw [extractLoop.eq_def]
          dsimp only
          rw [if_pos rfl]
          rw [extractLoop.eq_def]
          rfl
        · rw [if_neg e1]
          by_cases e2 : c = '\\'
          · subst e2
            rw [if_pos rfl]
            show extractLoop ('\\' :: '\\' :: rest') d true false acc' = _
            rw [extractLoop.eq_def]
            dsimp only
            rw [if_pos rfl]
            rw [extractLoop.eq_def]
            rfl
          · rw [if_neg e2]
            by_cases e3 : c = '\n'
            · subst e3
              rw [if_pos rfl]
              show extractLoop ('\\' :: 'n' :: rest') d true false acc' = _
              rw [extractLoop.eq_def]
              dsimp only
              rw [if_pos rfl]
              rw [extractLoop.eq_def]
              rfl
            · rw [if_neg e3]
              by_cases e4 : c = '\r'
              · subst e4
                rw [if_pos rfl]
                show extractLoop ('\\' :: 'r' :: rest') d true false acc' = _
                rw [extractLoop.eq_def]
                dsimp only
                rw [if_pos rfl]
                rw [extractLoop.eq_def]
                rfl
              · rw [if_neg e4]
                by_cases e5 : c = '\t'
                · subst e5
                  rw [if_pos rfl]
                  show extractLoop ('\\' :: 't' :: rest') d true false acc' = _
                  rw [extractLoop.eq_def]
                  dsimp only
                  rw [if_pos rfl]
                  rw [extractLoop.eq_def]
                  rfl
                · rw [if_neg e5]
                  by_cases e6 : c = Char.ofNat 8
                  · subst e6
                    rw [if_pos rfl]
                    show extractLoop ('\\' :: 'b' :: rest') d true false acc' = _
                    rw [extractLoop.eq_def]
                    dsimp only
                    rw [if_pos rfl]
                    rw [extractLoop.eq_def]
                    rfl
                  · rw [if_neg e6]
                    by_cases e7 : c = Char.ofNat 12
                    · subst e7
                      rw [if_pos rfl]
                      show extractLoop ('\\' :: 'f' :: rest') d true false acc' = _
                      rw [extractLoop.eq_def]
                      dsimp only
                      rw [if_pos rfl]
                      rw [extractLoop.eq_def]
                      rfl
                    · rw [if_neg e7]
                      by_cases e8 : c.toNat < 32
                      · rw [if_pos e8]
                        show extractLoop ('\\' :: 'u' :: '0' :: '0' ::
                          Nat.digitChar (c.toNat / 16) ::
                          Nat.digitChar (c.toNat % 16) :: rest') d true false acc' = _
                        obtain ⟨_, hq1, hs1⟩ :=
                          hexDigitChar_class (c.toNat / 16) (by omega)
                        obtain ⟨_, hq2, hs2⟩ :=
                          hexDigitChar_class (c.toNat % 16) (Nat.mod_lt _ (by norm_num))
                        rw [extractLoop.eq_def]
                        dsimp only
                        rw [if_pos rfl]
                        rw [extractLoop.eq_def]
                        dsimp only
                        rw [extractLoop.eq_def]
                        dsimp only
                        rw [if_neg (by decide), if_neg (by decide)]
                        rw [extractLoop.eq_def]
                        dsimp only
                        rw [if_neg (by decide), if_neg (by decide)]
                        rw [extractLoop.eq_def]
                        dsimp only
                        rw [if_neg hs1, if_neg hq1]
                        rw [extractLoop.eq_def]
                        dsimp only
                        rw [if_neg hs2, if_neg hq2]
                        rfl
                      · rw [if_neg e8]
                        show extractLoop (c :: rest') d true false acc' = _
                        rw [extractLoop.eq_def]
                        dsimp only
                        rw [if_neg e2, if_neg e1]
                        rfl
      rw [hstep (List.flatten (List.map escapeChar tl) ++ rest) acc, ih rest _ d]

theorem neutralChunk_escapeString (s : String) : NeutralChunk (escapeString s) := by
  intro d hd rest acc
  show extractLoop ('"' :: (((s.data.map escapeChar).flatten ++ ['"']) ++ rest))
      d false false acc = _
  rw [extractLoop.eq_def]
  dsimp only
  rw [if_pos rfl]
  rw [List.append_assoc]
  rw [extractLoop_string_body s.data ((['"'] : List Char) ++ rest) ('"' :: acc) d]
  show extractLoop ('"' :: rest) d true false _ = _
  rw [extractLoop.eq_def]
  dsimp only
  rw [if_neg (by decide), if_pos rfl]
  simp [escapeString, List.reverse_append]

mutual
theorem neutralChunk_stringifyJ (v : Json) : NeutralChunk (stringifyJ v) := by
  cases v with
  | null =>
      exact neutralChunk_of_all_plain _ (by decide)
  | bool b =>
      cases b <;> exact neutralChunk_of_all_plain _ (by decide)
  | num n =>
      apply neutralChunk_of_all_plain
      intro c hc
      show ¬ c = '"' ∧ ¬ c = '{' ∧ ¬ c = '}'
      have : c ∈ intToChars n := hc
      unfold intToChars at this
      split at this
      · rcases List.mem_cons.1 this with rfl | hmem
        · exact ⟨by decide, by decide, by decide⟩
        · obtain ⟨m, hm, rfl⟩ := mem_natToChars _ _ hmem
          obtain ⟨_, _, _, _, h5, _, _, h8, _, h10, _⟩ := digitChar_class m hm
          exact ⟨h5, h8, h10⟩
      · obtain ⟨m, hm, rfl⟩ := mem_natToChars _ _ this
        obtain ⟨_, _, _, _, h5, _, _, h8, _, h10, _⟩ := digitChar_class m hm
        exact ⟨h5, h8, h10⟩
  | str s => exact neutralChunk_escapeString s
  | arr xs =>
      have hin : NeutralChunk (stringifyArr xs) := by
        cases xs with
        | nil => exact neutralChunk_nil
        | cons v tl =>
            exact neutralChunk_append (neutralChunk_stringifyJ v)
              (neutralChunk_stringifyArrTail tl)
      have h1 : NeutralChunk ['['] := neutralChunk_plain '[' (by decide) (by decide) (by decide)
      have h2 : NeutralChunk [']'] := neutralChunk_plain ']' (by decide) (by decide) (by decide)
      have := neutralChunk_append h1 (neutralChunk_append hin h2)
      simpa [stringifyJ] using this
  | obj fs =>
      have hin : NeutralChunk (stringifyObj fs) := by
        cases fs with
        | nil => exact neutralChunk_nil
        | cons k v tl =>
            have hcolon : NeutralChunk [':'] :=
              neutralChunk_plain ':' (by decide) (by decide) (by decide)
            have := neutralChunk_append (neutralChunk_escapeString k)
              (neutralChunk_append hcolon
                (neutralChunk_append (neutralChunk_stringifyJ v)
                  (neutralChunk_stringifyObjTail tl)))
            simpa [stringifyObj] using this
      intro d hd rest acc
      show extractLoop ('{' :: ((stringifyObj fs ++ ['}']) ++ rest)) d false false acc = _
      rw [extractLoop.eq_def]
      dsimp only
      rw [if_neg (by decide), if_pos rfl, if_neg (by omega : ¬ d + 1 = 0)]
      rw [List.append_assoc]
      rw [hin (d + 1) (by omega) ((['}'] : List Char) ++ rest) ('{' :: acc)]
      show extractLoop ('}' :: rest) (d + 1) false false _ = _
      have hclose : ∀ (cs a : List Char),
          extractLoop ('}' :: cs) (d + 1) false false a =
            if d + 1 - 1 = 0 then some (('}' :: a).reverse)
            else extractLoop cs (d + 1 - 1) false false ('}' :: a) :=
        fun cs a => rfl
      rw [hclose, if_neg (by omega : ¬ (d + 1 - 1 : Int) = 0),
        (by omega : (d + 1 - 1 : Int) = d)]
      simp [stringifyJ, List.reverse_append]

theorem neutralChunk_stringifyArrTail (tl : JsonList) :
    NeutralChunk (stringifyArrTail tl) := by
  cases tl with
  | nil => exact neutralChunk_nil
  | cons v tl =>
      have hcomma : NeutralChunk [','] :=
        neutralChunk_plain ',' (by decide) (by decide) (by decide)
      have := neutralChunk_append hcomma
        (neutralChunk_append (neutralChunk_stringifyJ v)
          (neutralChunk_stringifyArrTail tl))
      simpa [stringifyArrTail] using this

theorem neutralChunk_stringifyObjTail (tl : JsonFields) :
    NeutralChunk (stringifyObjTail tl) := by
  cases tl with
  | nil => exact neutralChunk_nil
  | cons k v tl =>
      have hcomma : NeutralChunk [','] :=
        neutralChunk_plain ',' (by decide) (by decide) (by decide)
      have hcolon : NeutralChunk [':'] :=
        neutralChunk_plain ':' (by decide) (by decide) (by decide)
      have := neutralChunk_append hcomma
        (neutralChunk_append (neutralChunk_escapeString k)
          (neutralChunk_append hcolon
            (neutralChunk_append (neutralChunk_stringifyJ v)
              (neutralChunk_stringifyObjTail tl))))
      simpa [stringifyObjTail] using this
end

/-- The scanner on a serialized object (followed by anything) returns
exactly the serialized object. -/
theorem extractLoop_stringify_obj (fs : JsonFields) (rest : List Char) :
    extractLoop (stringifyJ (.obj fs) ++ rest) 0 false false [] =
      some (stringifyJ (.obj fs)) := by
  show extractLoop ('{' :: ((stringifyObj fs ++ ['}']) ++ rest)) 0 false false [] = _
  rw [extractLoop.eq_def]
  dsimp only
  rw [if_neg (by decide), if_pos rfl, if_neg (by omega : ¬ (0 : Int) + 1 = 0)]
  rw [List.append_assoc]
  have hin : NeutralChunk (stringifyObj fs) := by
    cases fs with
    | nil => exact neutralChunk_nil
    | cons k v tl =>
        have hcolon : NeutralChunk [':'] :=
          neutralChunk_plain ':' (by decide) (by decide) (by decide)
        have := neutralChunk_append (neutralChunk_escapeString k)
          (neutralChunk_append hcolon
            (neutralChunk_append (neutralChunk_stringifyJ v)
              (neutralChunk_stringifyObjTail tl)))
        simpa [stringifyObj] using this
  rw [hin ((0 : Int) + 1) (by omega) ((['}'] : List Char) ++ rest) ['{']]
  show extractLoop ('}' :: rest) ((0 : Int) + 1) false false _ = _
  have hclose : ∀ (cs a : List Char),
      extractLoop ('}' :: cs) ((0 : Int) + 1) false false a =
        if (0 : Int) + 1 - 1 = 0 then some (('}' :: a).reverse)
        else extractLoop cs ((0 : Int) + 1 - 1) false false ('}' :: a) :=
    fun cs a => rfl
  rw [hclose, if_pos (by omega : ((0 : Int) + 1 - 1 : Int) = 0)]
  simp [stringifyJ, List.reverse_append]

/-! ### `safeJsonParse` (client/src/config.ts)

The leading markdown-fence strip is the regex replace
`s.replace(/^(three backticks)(?:json)?\s*(slash)i, '')`; the `i` flag makes
the `json` tag case-insensitive, modelled by comparing lowered characters. -/

def icPrefix : List Char → List Char → Bool
  | [], _ => true
  | _ :: _, [] => false
  | p :: ps, c :: cs => (Char.toLower c == Char.toLower p) && icPrefix ps cs

def stripFenceStart (l : List Char) : List Char :=
  if icPrefix ("```json").data l then (l.drop 7).dropWhile jsIsWs
  else if icPrefix ("```").data l then (l.drop 3).dropWhile jsIsWs
  else l

def stripFenceEnd (l : List Char) : List Char :=
  if ("```").data.reverse.isPrefixOf l.reverse then (l.reverse.drop 3).reverse else l

def safeJsonParse (s : String) : Except String Json :=
  let trimmed := jsTrim s
  let unfenced := jsTrim ⟨stripFenceEnd (stripFenceStart trimmed.data)⟩
  let extracted := (extractFirstJsonObjectString unfenced).getD unfenced
  jsonParse extracted

theorem jsTrim_stringify_obj (fs : JsonFields) :
    jsTrim ⟨stringifyJ (.obj fs)⟩ = ⟨stringifyJ (.obj fs)⟩ := by
  unfold jsTrim
  have h1 : (⟨stringifyJ (.obj fs)⟩ : String).data.dropWhile jsIsWs =
      '{' :: (stringifyObj fs ++ ['}']) := rfl
  rw [h1]
  have h2 : ('{' :: (stringifyObj fs ++ ['}'])).reverse =
      '}' :: ((stringifyObj fs).reverse ++ ['{']) := by simp
  rw [h2]
  have h3 : List.dropWhile jsIsWs ('}' :: ((stringifyObj fs).reverse ++ ['{'])) =
      '}' :: ((stringifyObj fs).reverse ++ ['{']) := rfl
  rw [h3]
  have h4 : ('}' :: ((stringifyObj fs).reverse ++ ['{'])).reverse =
      '{' :: (stringifyObj fs ++ ['}']) := by simp
  rw [h4]
  rfl

theorem stripFenceEnd_stringify_obj (fs : JsonFields) :
    stripFenceEnd (stringifyJ (.obj fs)) = stringifyJ (.obj fs) := by
  unfold stripFenceEnd
  have h2 : (stringifyJ (.obj fs)).reverse =
      '}' :: ((stringifyObj fs).reverse ++ ['{']) := by
    rw [show stringifyJ (.obj fs) = '{' :: (stringifyObj fs ++ ['}']) from rfl]
    simp
  rw [h2]
  have hpre : List.isPrefixOf (("```").data.reverse)
      ('}' :: ((stringifyObj fs).reverse ++ ['{'])) = false := rfl
  rw [if_neg (by simp [hpre])]

theorem extractFirst_stringify_obj (fs : JsonFields) :
    extractFirstJsonObjectString ⟨stringifyJ (.obj fs)⟩ =
      some ⟨stringifyJ (.obj fs)⟩ := by
  have h1 : extractFirstJsonObjectString ⟨stringifyJ (.obj fs)⟩ =
      (extractLoop (stringifyJ (.obj fs)) 0 false false []).map
        (fun l => (⟨l⟩ : String)) := rfl
  rw [h1, show stringifyJ (Json.obj fs) = stringifyJ (Json.obj fs) ++ [] by simp,
    extractLoop_stringify_obj fs []]
  simp

/-- On exactly serialized objects, `safeJsonParse` recovers the object:
the trim and fence strips are the identity and the brace scanner extracts
the whole string. -/
theorem safeJsonParse_stringify_obj (fs : JsonFields) :
    safeJsonParse (jsonStringifyStr (.obj fs)) = .ok (.obj fs) := by
  unfold safeJsonParse
  dsimp only
  rw [show jsonStringifyStr (Json.obj fs) = ⟨stringifyJ (.obj fs)⟩ from rfl,
    jsTrim_stringify_obj fs,
    show (⟨stringifyJ (.obj fs)⟩ : String).data = stringifyJ (.obj fs) from rfl,
    show stripFenceStart (stringifyJ (.obj fs)) = stringifyJ (.obj fs) from rfl,
    stripFenceEnd_stringify_obj fs, jsTrim_stringify_obj fs,
    extractFirst_stringify_obj fs]
  rw [Option.getD_some]
  exact jsonParse_stringify (.obj fs)

/-! ### `parseAction` (client/src/config.ts)

JavaScript property access on an object built by `JSON.parse` sees the
last occurrence of a duplicated key, so `jGet` recurses tail-first. -/

def jGet : JsonFields → String → Option Json
  | .nil, _ => none
  | .cons k v tl, key =>
      match jGet tl key with
      | some r => some r
      | none => if k == key then some v else none

def jHasKey (fs : JsonFields) (k : String) : Bool := (jGet fs k).isSome

inductive Action
  | tool (server toolName : String) (args : JsonFields)
  | final (text : String)
deriving DecidableEq

def parseAction (modelText : String) : Except String Action :=
  match safeJsonParse modelText with
  | .error e => .error e
  | .ok v =>
      match v with
      | .obj fs =>
          if jGet fs "type" = some (.str "final") then
            match jGet fs "text" with
            | some (.str t) => .ok (.final t)
            | _ => .error "final.text must be a string"
          else if jGet fs "type" = some (.str "tool") then
            match jGet fs "server" with
            | some (.str sv) =>
                match jGet fs "tool" with
                | some (.str tn) =>
                    match jGet fs "args" with
                    | none => .ok (.tool sv tn .nil)
                    | some (.obj a) => .ok (.tool sv tn a)
                    | some _ => .error "tool.args must be an object"
                | _ => .error "tool.tool must be a string"
            | _ => .error "tool.server must be a string"
          else .error "Action.type must be \x22tool\x22 or \x22final\x22"
      | _ => .error "Model did not return a JSON object"

/-- Serialization of an action value as the protocol's JSON shape. -/
def renderAction : Action → String
  | .final t => jsonStringifyStr (.obj (.cons "type" (.str "final")
      (.cons "text" (.str t) .nil)))
  | .tool sv tn args => jsonStringifyStr (.obj (.cons "type" (.str "tool")
      (.cons "server" (.str sv) (.cons "tool" (.str tn)
        (.cons "args" (.obj args) .nil)))))

/-- Same, with the optional `args` member omitted. -/
def renderActionNoArgs (sv tn : String) : String :=
  jsonStringifyStr (.obj (.cons "type" (.str "tool")
    (.cons "server" (.str sv) (.cons "tool" (.str tn) .nil))))

/-- C9: the action parser round-trips every valid action: parsing the JSON
serialization of a `final` action with any text, or of a `tool` action with
any server, tool and object args, yields the action back; and a serialized
`tool` action with no `args` member parses to the action with empty args. -/
theorem parseAction_roundtrip :
    (∀ (t : String), parseAction (renderAction (.final t)) = .ok (.final t)) ∧
    (∀ (sv tn : String) (args : JsonFields),
        parseAction (renderAction (.tool sv tn args)) = .ok (.tool sv tn args)) ∧
    (∀ (sv tn : String),
        parseAction (renderActionNoArgs sv tn) = .ok (.tool sv tn .nil)) := by
  refine ⟨fun t => ?_, fun sv tn args => ?_, fun sv tn => ?_⟩
  · unfold parseAction renderAction
    rw [safeJsonParse_stringify_obj]
    rfl
  · unfold parseAction renderAction
    rw [safeJsonParse_stringify_obj]
    rfl
  · unfold parseAction renderActionNoArgs
    rw [safeJsonParse_stringify_obj]
    rfl

/-! ### The agent loop of `handleUserMessage` (client/src/config.ts)

Effects are oracles: `tf` stands for `server.client.callTool` composed with
`extractToolText`/`extractConfirmation`, `wizardParse` for the regex-heavy
`parseSshWizardInput`, and the model is a queue of raw outputs (or network
errors), one consumed per `callModel`. The `dispatched` list is a ghost
record of every `callTool` invocation. -/

inductive Role
  | system
  | user
  | assistant
  | tool
deriving DecidableEq

structure ChatMsg where
  role : Role
  content : String
deriving DecidableEq

structure ConfInfo where
  token : String
  reason : Option String
  expiresAt : Option String
deriving DecidableEq

structure ToolResp where
  text : String
  conf : Option ConfInfo
deriving DecidableEq

structure Dispatch where
  server : String
  toolName : String
  args : JsonFields
deriving DecidableEq

structure LoopOut where
  reply : String
  history : List ChatMsg
  awaiting : Bool
  dispatched : List Dispatch
deriving DecidableEq

def callKeyOf (server toolName : String) (args : JsonFields) : String :=
  server ++ "." ++ toolName ++ " " ++ jsonStringifyStr (.obj args)

def dispatchKey (d : Dispatch) : String := callKeyOf d.server d.toolName d.args

def sshWizardPrompt : String :=
  "I can generate an SSH key, but first choose options (or say \"use defaults\"):\n" ++
  "- type: default ed25519 (or rsa)\n" ++
  "- filename under ~/.ssh: default id_ed25519\n" ++
  "- comment (optional): default laya-mcp\n" ++
  "- passphrase (optional): default empty\n" ++
  "- overwrite existing key files? default no\n" ++
  "\n" ++
  "Reply with something like:\n" ++
  "\"use defaults\"\n" ++
  "or\n" ++
  "\"type ed25519, filename id_ed25519_work, comment work, no passphrase, no overwrite\""

def isSshKeyIntent (text : String) : Bool :=
  let t := jsToLower text
  (jsIncludes t "ssh" && jsIncludes t "key") || jsIncludes t "ssh-key" ||
    jsIncludes t "sshkey"

def hasAnyGenKeyOption (args : JsonFields) : Bool :=
  jHasKey args "type" || jHasKey args "filename" || jHasKey args "comment" ||
    jHasKey args "passphrase" || jHasKey args "overwrite"

def sshPendingReply (token : String) : String :=
  "SSH key generation is pending confirmation.\nRun these (twice) to proceed:\n" ++
    "/confirm " ++ token ++ "\nThen run /confirm <token2> from the response.\n"

def confirmReply (token : String) : String :=
  "Action requires confirmation.\nRun these (twice) to proceed:\n" ++
    "/confirm " ++ token ++ "\nThen run /confirm <token2> from the response.\n"

def callModelOnce (models : List (Except String String)) :
    Except String (String × Action) × List (Except String String) :=
  match models with
  | [] => (.error "model unavailable", [])
  | m :: rest =>
      match m with
      | .error e => (.error e, rest)
      | .ok raw =>
          match parseAction raw with
          | .error e => (.error e, rest)
          | .ok a => (.ok (raw, a), rest)

def callModelWithRetry (models : List (Except String String)) :
    Except String (String × Action) × List (Except String String) :=
  match callModelOnce models with
  | (.ok ra, rest) => (.ok ra, rest)
  | (.error _, rest) =>
      match callModelOnce rest with
      | (.ok ra, rest2) => (.ok ra, rest2)
      | (.error e2, rest2) => (.error e2, rest2)

def agentLoop (sn : List String)
    (tf : String → String → JsonFields → Except String ToolResp)
    (maxSteps : Nat) :
    Nat → Nat → List (Except String String) → List ChatMsg →
      List String → List Dispatch → LoopOut
  | 0, _, _, hist, _, disp =>
      ⟨"I hit the tool-call step limit (" ++ toString maxSteps ++
          ") before finishing. Try rephrasing or ask me to stop earlier.",
        hist, false, disp⟩
  | fuel + 1, step, models, hist, seen, disp =>
      match callModelWithRetry models with
      | (.error e, _) =>
          ⟨"I couldn't parse the model response as an action JSON.\nError: " ++ e ++
              "\nTip: try a smaller model, or ask a simpler question first (e.g. \"Say hi\").",
            hist, false, disp⟩
      | (.ok (raw, act), models1) =>
          let hist1 := hist ++ [⟨.assistant, jsTrim raw⟩]
          match act with
          | .final t => ⟨t, hist1, false, disp⟩
          | .tool sv tn args =>
              if sv = "terminal-server" ∧ tn = "confirm" then
                ⟨"For safety, please run confirmations manually as a slash command: /confirm <token>",
                  hist1, false, disp⟩
              else if sv = "terminal-server" ∧ tn = "generate_ssh_key" ∧
                  hasAnyGenKeyOption args = false then
                ⟨sshWizardPrompt, hist1, true, disp⟩
              else
                if callKeyOf sv tn args ∈ seen then
                  agentLoop sn tf maxSteps fuel (step + 1) models1
                    (hist1 ++ [⟨.tool,
                      "ERROR: Detected repeated tool call (" ++ callKeyOf sv tn args ++
                        "). Do not repeat the same call. Respond with a final answer now."⟩])
                    seen disp
                else
                  let seen1 := seen ++ [callKeyOf sv tn args]
                  let hist2 := if maxSteps - 2 ≤ step then
                      hist1 ++ [⟨.tool,
                        "NOTE: Tool-call budget is almost exhausted (" ++ toString (step + 1) ++
                          "/" ++ toString maxSteps ++ "). Please respond with a final answer."⟩]
                    else hist1
                  if sv ∈ sn then
                    let disp1 := disp ++ [⟨sv, tn, args⟩]
                    match tf sv tn args with
                    | .ok resp =>
                        let hist3 := hist2 ++ [⟨.tool,
                          sv ++ "." ++ tn ++ "(" ++ jsonStringifyStr (.obj args) ++
                            "):\n" ++ resp.text⟩]
                        if sv = "terminal-server" ∧ tn = "find_files" then
                          ⟨resp.text, hist3, false, disp1⟩
                        else
                          let cmd := match jGet args "command" with
                            | some (.str c) => c
                            | _ => ""
                          if sv = "terminal-server" ∧ tn = "run" ∧ cmd = "date" then
                            ⟨resp.text, hist3, false, disp1⟩
                          else
                            match resp.conf with
                            | some c => ⟨confirmReply c.token, hist3, false, disp1⟩
                            | none =>
                                agentLoop sn tf maxSteps fuel (step + 1) models1 hist3
                                  seen1 disp1
                    | .error e =>
                        agentLoop sn tf maxSteps fuel (step + 1) models1
                          (hist2 ++ [⟨.tool,
                            "ERROR calling " ++ sv ++ "." ++ tn ++ "(" ++
                              jsonStringifyStr (.obj args) ++ "): " ++ e⟩])
                          seen1 disp1
                  else
                    agentLoop sn tf maxSteps fuel (step + 1) models1
                      (hist2 ++ [⟨.tool, "ERROR: Unknown server \"" ++ sv ++ "\""⟩])
                      seen1 disp

def handleUserMessage (sn : List String)
    (tf : String → String → JsonFields → Except String ToolResp)
    (wizardParse : String → JsonFields) (maxSteps : Nat)
    (models : List (Except String String)) (hist0 : List ChatMsg)
    (awaiting0 : Bool) (userText : String) : LoopOut :=
  let hist1 := hist0 ++ [⟨.user, userText⟩]
  if awaiting0 then
    let args := wizardParse userText
    if "terminal-server" ∈ sn then
      match tf "terminal-server" "generate_ssh_key" args with
      | .ok r =>
          let hist2 := hist1 ++ [⟨.tool,
            "terminal-server.generate_ssh_key(" ++ jsonStringifyStr (.obj args) ++
              "):\n" ++ r.text⟩]
          match r.conf with
          | some c => ⟨sshPendingReply c.token, hist2, false,
              [⟨"terminal-server", "generate_ssh_key", args⟩]⟩
          | none => ⟨r.text, hist2, false,
              [⟨"terminal-server", "generate_ssh_key", args⟩]⟩
      | .error e => ⟨e, hist1, false,
          [⟨"terminal-server", "generate_ssh_key", args⟩]⟩
    else ⟨"Unknown server: terminal-server", hist1, false, []⟩
  else if isSshKeyIntent userText then
    let lower := jsToLower userText
    if (jsIncludes lower "use defaults" || lower == "defaults" ||
        lower == "default") = false then
      ⟨sshWizardPrompt, hist1, true, []⟩
    else
      if "terminal-server" ∈ sn then
        match tf "terminal-server" "generate_ssh_key" .nil with
        | .ok r =>
            let hist2 := hist1 ++ [⟨.tool,
              "terminal-server.generate_ssh_key(" ++ jsonStringifyStr (.obj .nil) ++
                "):\n" ++ r.text⟩]
            match r.conf with
            | some c => ⟨sshPendingReply c.token, hist2, false,
                [⟨"terminal-server", "generate_ssh_key", .nil⟩]⟩
            | none => ⟨r.text, hist2, false,
                [⟨"terminal-server", "generate_ssh_key", .nil⟩]⟩
        | .error e => ⟨e, hist1, false,
            [⟨"terminal-server", "generate_ssh_key", .nil⟩]⟩
      else ⟨"Unknown server: terminal-server", hist1, false, []⟩
  else
    agentLoop sn tf maxSteps maxSteps 0 models hist1 [] []

/-- Invariant carried around the loop: if the already-dispatched call keys
are distinct and all recorded in `seen`, the loop never dispatches a
duplicate. -/
theorem agentLoop_dispatchKeys_nodup (sn : List String)
    (tf : String → String → JsonFields → Except String ToolResp) (ms : Nat) :
    ∀ (fuel step : Nat) (models : List (Except String String)) (hist : List ChatMsg)
      (seen : List String) (disp : List Dispatch),
      (disp.map dispatchKey).Nodup →
      (∀ k ∈ disp.map dispatchKey, k ∈ seen) →
      ((agentLoop sn tf ms fuel step models hist seen disp).dispatched.map
        dispatchKey).Nodup := by
  intro fuel
  induction fuel with
  | zero =>
      intro step models hist seen disp hnd _
      exact hnd
  | succ fuel ih =>
      intro step models hist seen disp hnd hsub
      unfold agentLoop
      dsimp only
      cases hm : callModelWithRetry models with
      | mk r models1 =>
          cases r with
          | error e => exact hnd
          | ok ra =>
              obtain ⟨raw, act⟩ := ra
              cases act with
              | final t => exact hnd
              | tool sv tn args =>
                  dsimp only
                  by_cases h1 : sv = "terminal-server" ∧ tn = "confirm"
                  · rw [if_pos h1]
                    exact hnd
                  · rw [if_neg h1]
                    by_cases h2 : sv = "terminal-server" ∧ tn = "generate_ssh_key" ∧
                        hasAnyGenKeyOption args = false
                    · rw [if_pos h2]
                      exact hnd
                    · rw [if_neg h2]
                      by_cases h3 : callKeyOf sv tn args ∈ seen
                      · rw [if_pos h3]
                        exact ih (step + 1) models1 _ seen disp hnd hsub
                      · rw [if_neg h3]
                        have hkey : callKeyOf sv tn args ∉ disp.map dispatchKey :=
                          fun hk => h3 (hsub _ hk)
                        have hnd1 : ((disp ++ [(⟨sv, tn, args⟩ : Dispatch)]).map
                            dispatchKey).Nodup := by
                          rw [List.map_append, List.nodup_append]
                          refine ⟨hnd, List.nodup_singleton _, ?_⟩
                          intro a ha hb
                          simp only [List.map_cons, List.map_nil,
                            List.mem_singleton] at hb
                          subst hb
                          exact hkey ha
                        have hsub1 : ∀ k ∈ (disp ++ [(⟨sv, tn, args⟩ : Dispatch)]).map
                            dispatchKey, k ∈ seen ++ [callKeyOf sv tn args] := by
                          intro k hk
                          rw [List.map_append, List.mem_append] at hk
                          rcases hk with hk | hk
                          · exact List.mem_append_left _ (hsub _ hk)
                          · simp only [List.map_cons, List.map_nil,
                              List.mem_singleton] at hk
                            subst hk
                            exact List.mem_append_right _ (by simp [dispatchKey])
                        by_cases h4 : sv ∈ sn
                        · rw [if_pos h4]
                          cases htf : tf sv tn args with
                          | ok resp =>
                              dsimp only
                              split
                              · exact hnd1
                              · split
                                · exact hnd1
                                · cases hconf : resp.conf with
                                  | some c => exact hnd1
                                  | none => exact ih (step + 1) models1 _ _ _ hnd1 hsub1
                          | error e => exact ih (step + 1) models1 _ _ _ hnd1 hsub1
                        · rw [if_neg h4]
                          exact ih (step + 1) models1 _ (seen ++ [callKeyOf sv tn args])
                            disp hnd
                            (fun k hk => List.mem_append_left _ (hsub k hk))

/-- C8: within one user turn, no (server, tool, args) triple is dispatched
twice: every turn's ghost dispatch record has pairwise-distinct call keys,
and an iteration whose model action repeats a key already in the seen set
only appends the synthetic repeated-call tool message to the history and
continues, dispatching nothing and leaving the seen set and the dispatch
record unchanged. -/
theorem agent_turn_never_dispatches_duplicate_call :
    (∀ (sn : List String) (tf : String → String → JsonFields → Except String ToolResp)
        (wp : String → JsonFields) (ms : Nat) (models : List (Except String String))
        (hist0 : List ChatMsg) (aw : Bool) (userText : String),
        ((handleUserMessage sn tf wp ms models hist0 aw userText).dispatched.map
          dispatchKey).Nodup) ∧
    (∀ (sn : List String) (tf : String → String → JsonFields → Except String ToolResp)
        (ms fuel step : Nat) (models models1 : List (Except String String))
        (hist : List ChatMsg) (seen : List String) (disp : List Dispatch)
        (raw sv tn : String) (args : JsonFields),
        callModelWithRetry models = (.ok (raw, .tool sv tn args), models1) →
        ¬(sv = "terminal-server" ∧ tn = "confirm") →
        ¬(sv = "terminal-server" ∧ tn = "generate_ssh_key" ∧
            hasAnyGenKeyOption args = false) →
        callKeyOf sv tn args ∈ seen →
        agentLoop sn tf ms (fuel + 1) step models hist seen disp =
          agentLoop sn tf ms fuel (step + 1) models1
            (hist ++ [⟨.assistant, jsTrim raw⟩, ⟨.tool,
              "ERROR: Detected repeated tool call (" ++ callKeyOf sv tn args ++
                "). Do not repeat the same call. Respond with a final answer now."⟩])
            seen disp) := by
  constructor
  · intro sn tf wp ms models hist0 aw userText
    unfold handleUserMessage
    dsimp only
    split
    · split
      · split
        · split <;> simp [List.nodup_singleton]
        · simp [List.nodup_singleton]
      · simp
    · split
      · split
        · simp
        · split
          · split
            · split <;> simp [List.nodup_singleton]
            · simp [List.nodup_singleton]
          · simp
      · exact agentLoop_dispatchKeys_nodup sn tf ms ms 0 models _ [] []
          (by simp) (by simp)
  · intro sn tf ms fuel step models models1 hist seen disp raw sv tn args
      hm hnc hng hmem
    conv_lhs => rw [agentLoop.eq_def]
    dsimp only
    rw [hm]
    dsimp only
    rw [if_neg hnc, if_neg hng, if_pos hmem]
    rw [List.append_assoc]
    rfl

def tfW : String → String → JsonFields → Except String ToolResp :=
  fun _ _ _ => .ok ⟨"ok", none⟩

def rawToolW : String :=
  "\x7b\"type\":\"tool\",\"server\":\"s\",\"tool\":\"t\"\x7d"

theorem agent_turn_never_dispatches_duplicate_call_witness :
    ((handleUserMessage ["s"] tfW (fun _ => JsonFields.nil) 6 [Except.ok rawToolW]
        [] false "hello").dispatched.map dispatchKey).Nodup ∧
    agentLoop ["s"] tfW 6 1 0 [Except.ok rawToolW] [] [callKeyOf "s" "t" .nil] [] =
      agentLoop ["s"] tfW 6 0 1 []
        ([] ++ [⟨.assistant, jsTrim rawToolW⟩, ⟨.tool,
          "ERROR: Detected repeated tool call (" ++ callKeyOf "s" "t" .nil ++
            "). Do not repeat the same call. Respond with a final answer now."⟩])
        [callKeyOf "s" "t" .nil] [] :=
  ⟨agent_turn_never_dispatches_duplicate_call.1 ["s"] tfW (fun _ => JsonFields.nil) 6
      [Except.ok rawToolW] [] false "hello",
    agent_turn_never_dispatches_duplicate_call.2 ["s"] tfW 6 0 0 [Except.ok rawToolW]
      [] [] [callKeyOf "s" "t" .nil] [] rawToolW "s" "t" .nil (by rfl) (by decide)
      (by decide) (by simp)⟩

theorem confirm_stage2_executes_stored_payload_witness :
    polNoKeygen.allowedCommands.contains "ssh-keygen" = false ∧
    isDangerous polNoKeygen "ssh-keygen" pKeygen2.args =
      some "Command \"ssh-keygen\" is marked dangerous by policy" ∧
    (toolConfirm polNoKeygen [pKeygen2] 10 "f" (.ok (["done"], [], some 0)) (.ok ())
        "kg-2").2.1 = [⟨pKeygen2.command, pKeygen2.args, pKeygen2.cwd⟩] :=
  ⟨rfl, rfl,
   (confirm_stage2_executes_stored_payload polNoKeygen [pKeygen2] 10 "f"
      (.ok (["done"], [], some 0)) (.ok ()) "kg-2" pKeygen2 rfl (by decide)
      (by decide)).1⟩

end Laya
